import Mathlib

/-!
Verification of the dead-man-hand (DMH) issuer/keeper core against its
natural-language specification.  The Go source is shallowly embedded:

* Go strings that may or may not be base64-encoded age ciphertexts are
  modelled by the inductive `GoString`, which partitions strings into
  ordinary text (`raw`) and valid base64 encodings of an age ciphertext
  (`cipherB64`).  The external `filippo.io/age` library is modelled
  symbolically: a ciphertext records the recipient it was encrypted to and
  the plaintext, and decryption succeeds exactly when the decrypting
  identity matches the recipient (the library's documented contract).
* Go `time.Time` / `time.Duration` values are modelled as mathematical
  `Int` nanoseconds; the claims at stake are order comparisons on
  in-range values, where Go's int64 arithmetic agrees with `Int`.
* Nondeterminism (fresh keypair generation, fresh UUIDs, network
  outcomes) is passed in explicitly as oracle arguments.
* Fallible Go functions returning `(T, error)` become `Except` values.
-/

/-- Symbolic model of an age X25519 recipient (public key). -/
structure Recipient where
  pub : String
deriving DecidableEq, Repr

/-- Symbolic model of an age X25519 identity (private key), identified by
its serialised form. -/
structure X25519Identity where
  seed : String
deriving DecidableEq, Repr

/-- `Identity.Recipient()`: the public key determined by an identity. -/
def X25519Identity.recipient (i : X25519Identity) : Recipient :=
  ⟨i.seed⟩

/-- A Go string, partitioned into ordinary text and valid base64 encodings
of an age ciphertext (`cipherB64 r p` is the base64 of the age encryption
of plaintext `p` to recipient `r`). -/
inductive GoString where
  | raw (s : String)
  | cipherB64 (recipient : Recipient) (plain : GoString)
deriving DecidableEq, Repr

/-- The empty-string test `data == ""` from crypt.go; the base64 encoding
of an age ciphertext is never empty. -/
def GoString.isEmptyStr : GoString → Bool
  | .raw s => s = ""
  | .cipherB64 _ _ => false

/-- Error kinds surfaced by the crypt wrapper (crypt.go). -/
inductive CryptError where
  | emptyData
  | parseIdentityFailed
  | decodeOrDecryptFailed
  | generateFailed
deriving DecidableEq, Repr

/-- `Crypt` from crypt.go: holds one age identity. -/
structure Crypt where
  identity : X25519Identity
deriving DecidableEq, Repr

/-- `age.ParseX25519Identity`: parses a serialised private key; fails on
text that is not a serialised identity (modelled: the empty string and
ciphertext strings are not valid identities). -/
def ageParseX25519Identity : GoString → Except CryptError X25519Identity
  | .raw s => if s = "" then .error .parseIdentityFailed else .ok ⟨s⟩
  | .cipherB64 _ _ => .error .parseIdentityFailed

/-- `X25519Identity.String()`: the serialised private-key form. -/
def X25519Identity.serialize (i : X25519Identity) : GoString :=
  .raw i.seed

/-- `crypt.New(key)`: with `key == ""` a fresh identity is generated
(`gen` is the oracle for `age.GenerateX25519Identity`, which may fail);
otherwise the key string is parsed. -/
def cryptNew (key : GoString) (gen : Except CryptError X25519Identity) :
    Except CryptError Crypt :=
  if key.isEmptyStr then gen.map Crypt.mk
  else (ageParseX25519Identity key).map Crypt.mk

/-- `Crypt.Encrypt` (crypt.go:56-70): rejects empty input, otherwise
age-encrypts to the instance's own recipient and base64-encodes. -/
def Crypt.Encrypt (c : Crypt) (data : GoString) : Except CryptError GoString :=
  if data.isEmptyStr then .error .emptyData
  else .ok (.cipherB64 c.identity.recipient data)

/-- `Crypt.Decrypt` (crypt.go:75-94): rejects empty input, base64-decodes,
age-decrypts; fails on text that is not a ciphertext and on a recipient
mismatch (wrong key). -/
def Crypt.Decrypt (c : Crypt) (data : GoString) : Except CryptError GoString :=
  if data.isEmptyStr then .error .emptyData
  else
    match data with
    | .raw _ => .error .decodeOrDecryptFailed
    | .cipherB64 r plain =>
        if r = c.identity.recipient then .ok plain
        else .error .decodeOrDecryptFailed

/-- `Crypt.GetPrivateKey` (crypt.go:97-99). -/
def Crypt.GetPrivateKey (c : Crypt) : GoString :=
  c.identity.serialize

/-- C7: decrypting with the identity whose recipient was used to encrypt
returns exactly the original plaintext, for every non-empty plaintext. -/
theorem crypt_encrypt_decrypt_roundtrip
    (c : Crypt) (s : GoString) (b : GoString)
    (hs : s.isEmptyStr = false)
    (henc : c.Encrypt s = .ok b) :
    c.Decrypt b = .ok s := by
  unfold Crypt.Encrypt at henc
  rw [hs] at henc
  simp at henc
  subst henc
  unfold Crypt.Decrypt
  simp [GoString.isEmptyStr]

/-- Witness for C7 at a concrete identity and plaintext. -/
theorem crypt_encrypt_decrypt_roundtrip_witness :
    (GoString.raw "hello").isEmptyStr = false ∧
    (Crypt.mk ⟨"id1"⟩).Decrypt
      (GoString.cipherB64 ⟨"id1"⟩ (.raw "hello")) = .ok (.raw "hello") :=
  ⟨by decide,
   crypt_encrypt_decrypt_roundtrip (Crypt.mk ⟨"id1"⟩) (.raw "hello")
     (GoString.cipherB64 ⟨"id1"⟩ (.raw "hello")) (by decide) rfl⟩

/-- C8: `Encrypt` on the empty string always fails with the empty-data
error and produces no ciphertext; on every non-empty input it succeeds
(the only other failure sources are the underlying age/io calls, which
are external to the repository). -/
theorem crypt_encrypt_empty_rejected
    (c : Crypt) (s : GoString) (hs : s.isEmptyStr = true) :
    c.Encrypt s = .error .emptyData ∧
    ∀ t : GoString, t.isEmptyStr = false →
      c.Encrypt t = .ok (.cipherB64 c.identity.recipient t) := by
  constructor
  · unfold Crypt.Encrypt
    rw [hs]
    simp
  · intro t ht
    unfold Crypt.Encrypt
    rw [ht]
    simp

/-- Witness for C8 at a concrete identity. -/
theorem crypt_encrypt_empty_rejected_witness :
    (Crypt.mk ⟨"id2"⟩).Encrypt (.raw "") = .error .emptyData ∧
    ∀ t : GoString, t.isEmptyStr = false →
      (Crypt.mk ⟨"id2"⟩).Encrypt t =
        .ok (.cipherB64 (⟨"id2"⟩ : X25519Identity).recipient t) :=
  crypt_encrypt_empty_rejected (Crypt.mk ⟨"id2"⟩) (.raw "") (by decide)

/-! ## Keeper (vault) model — embedded from the vault package -/

/-- Association-list model of a Go `map[string]V`: first binding wins. -/
def alistFind {α : Type} (k : String) : List (String × α) → Option α
  | [] => none
  | (k', v) :: rest => if k' = k then some v else alistFind k rest

/-- Go map assignment `m[k] = v`: replaces the binding if present,
otherwise appends it. -/
def alistInsert {α : Type} (k : String) (v : α) :
    List (String × α) → List (String × α)
  | [] => [(k, v)]
  | (k', v') :: rest =>
      if k' = k then (k, v) :: rest else (k', v') :: alistInsert k v rest

/-- Go `delete(m, k)`: removes the binding for `k` if present. -/
def alistErase {α : Type} (k : String) :
    List (String × α) → List (String × α)
  | [] => []
  | (k', v') :: rest =>
      if k' = k then rest else (k', v') :: alistErase k rest

/-- `vault.Secret`: a held private key with its release gate.  At rest the
`key` field holds the master-key ciphertext; on the wire it holds the
plaintext private key. -/
structure VSecret where
  key : GoString
  processAfter : Int
  encryptionKind : String
deriving DecidableEq, Repr

/-- `vault.VaultData`: per-client record (lastSeen, secrets). -/
structure VaultData where
  lastSeen : Int
  secrets : List (String × VSecret)
deriving DecidableEq, Repr

/-- `vault.Vault`: client map, master key, release time unit
(nanoseconds). -/
structure Vault where
  data : List (String × VaultData)
  key : GoString
  secretProcessUnit : Int
deriving DecidableEq, Repr

/-- Error kinds surfaced by the vault (by error message, as api.go
distinguishes them). -/
inductive VaultError where
  | missing
  | notReleased
  | crypt (e : CryptError)
deriving DecidableEq, Repr

/-- `Vault.ensureClientUUID` (vault section of dummy_test.go:968-976):
materialises the client record with `lastSeen = now` if absent. -/
def Vault.ensureClientUUID (v : Vault) (clientUUID : String) (now : Int) : Vault :=
  match alistFind clientUUID v.data with
  | some _ => v
  | none => { v with data := alistInsert clientUUID ⟨now, []⟩ v.data }

/-- `Vault.UpdateLastSeen` (dummy_test.go:866-870). -/
def Vault.UpdateLastSeen (v : Vault) (clientUUID : String) (now : Int) : Vault :=
  let v := v.ensureClientUUID clientUUID now
  match alistFind clientUUID v.data with
  | some cd =>
      { v with data := alistInsert clientUUID ({ cd with lastSeen := now }) v.data }
  | none => v

/-- `Vault.GetSecret` (dummy_test.go:875-907): release-gated read.  `gen`
is the entropy oracle for `crypt.New` (used only when the master key is
empty).  Returns the result and the vault after `ensureClientUUID`. -/
def Vault.GetSecret (v : Vault) (clientUUID secretUUID : String) (now : Int)
    (gen : Except CryptError X25519Identity) :
    Except VaultError VSecret × Vault :=
  let v := v.ensureClientUUID clientUUID now
  match alistFind clientUUID v.data with
  | none => (.error .missing, v)
  | some cd =>
    match alistFind secretUUID cd.secrets with
    | none => (.error .missing, v)
    | some sec =>
      if now - cd.lastSeen ≤ sec.processAfter * v.secretProcessUnit then
        (.error .notReleased, v)
      else
        match cryptNew v.key gen with
        | .error e => (.error (.crypt e), v)
        | .ok c =>
          match c.Decrypt sec.key with
          | .error e => (.error (.crypt e), v)
          | .ok dk => (.ok ⟨dk, sec.processAfter, sec.encryptionKind⟩, v)

/-- `Vault.DeleteSecret` (dummy_test.go:946-965): release-gated delete. -/
def Vault.DeleteSecret (v : Vault) (clientUUID secretUUID : String) (now : Int) :
    Except VaultError Unit × Vault :=
  let v := v.ensureClientUUID clientUUID now
  match alistFind clientUUID v.data with
  | none => (.error .missing, v)
  | some cd =>
    match alistFind secretUUID cd.secrets with
    | none => (.error .missing, v)
    | some sec =>
      if now - cd.lastSeen ≤ sec.processAfter * v.secretProcessUnit then
        (.error .notReleased, v)
      else
        let cd' : VaultData := { cd with secrets := alistErase secretUUID cd.secrets }
        (.ok (), { v with data := alistInsert clientUUID cd' v.data })

/-- If the client record exists, `ensureClientUUID` is the identity. -/
theorem ensureClientUUID_of_found (v : Vault) (c : String) (now : Int)
    (cd : VaultData) (h : alistFind c v.data = some cd) :
    v.ensureClientUUID c now = v := by
  unfold Vault.ensureClientUUID
  rw [h]

/-- C1: for an existing secret, GetSecret and DeleteSecret fail with
NotReleased exactly when `now - lastSeen ≤ processAfter * unit`; the
secret is released (DeleteSecret succeeds, GetSecret passes the gate) if
and only if the strict inequality `now - lastSeen > processAfter * unit`
holds, and at the exact boundary both calls still fail with NotReleased. -/
theorem vault_release_gate_strict
    (v : Vault) (c s : String) (now : Int)
    (gen : Except CryptError X25519Identity)
    (cd : VaultData) (sec : VSecret)
    (hc : alistFind c v.data = some cd)
    (hs : alistFind s cd.secrets = some sec) :
    (((v.GetSecret c s now gen).1 = .error .notReleased) ↔
       now - cd.lastSeen ≤ sec.processAfter * v.secretProcessUnit) ∧
    (((v.DeleteSecret c s now).1 = .ok ()) ↔
       now - cd.lastSeen > sec.processAfter * v.secretProcessUnit) ∧
    (now - cd.lastSeen = sec.processAfter * v.secretProcessUnit →
       (v.GetSecret c s now gen).1 = .error .notReleased ∧
       (v.DeleteSecret c s now).1 = .error .notReleased) := by
  have hget : v.GetSecret c s now gen =
      (if now - cd.lastSeen ≤ sec.processAfter * v.secretProcessUnit then
        (.error .notReleased, v)
      else
        match cryptNew v.key gen with
        | .error e => (.error (.crypt e), v)
        | .ok cr =>
          match cr.Decrypt sec.key with
          | .error e => (.error (.crypt e), v)
          | .ok dk => (.ok ⟨dk, sec.processAfter, sec.encryptionKind⟩, v)) := by
    simp only [Vault.GetSecret]
    rw [ensureClientUUID_of_found v c now cd hc, hc]
    dsimp only
    rw [hs]
  have hdel : v.DeleteSecret c s now =
      (if now - cd.lastSeen ≤ sec.processAfter * v.secretProcessUnit then
        (.error .notReleased, v)
      else
        (.ok (),
         { v with data :=
             alistInsert c ({ cd with secrets := alistErase s cd.secrets }) v.data })) := by
    simp only [Vault.DeleteSecret]
    rw [ensureClientUUID_of_found v c now cd hc, hc]
    dsimp only
    rw [hs]
  refine ⟨?_, ?_, ?_⟩
  · rw [hget]
    by_cases hgate : now - cd.lastSeen ≤ sec.processAfter * v.secretProcessUnit
    · simp [hgate]
    · simp only [if_neg hgate]
      constructor
      · intro habs
        exfalso
        cases hcr : cryptNew v.key gen with
        | error e => rw [hcr] at habs; simp at habs
        | ok cr =>
          rw [hcr] at habs
          dsimp only at habs
          cases hdk : cr.Decrypt sec.key with
          | error e => rw [hdk] at habs; simp at habs
          | ok dk => rw [hdk] at habs; simp at habs
      · intro hle; exact absurd hle hgate
  · rw [hdel]
    by_cases hgate : now - cd.lastSeen ≤ sec.processAfter * v.secretProcessUnit
    · rw [if_pos hgate]
      constructor
      · intro habs; simp at habs
      · intro hgt; exfalso; omega
    · rw [if_neg hgate]
      constructor
      · intro _; omega
      · intro _; rfl
  · intro heq
    rw [hget, hdel]
    have hgate : now - cd.lastSeen ≤ sec.processAfter * v.secretProcessUnit := le_of_eq heq
    rw [if_pos hgate, if_pos hgate]
    exact ⟨rfl, rfl⟩

/-- Witness for C1: a concrete vault with one secret, queried exactly at
the boundary (gate closed) — the hypotheses of the theorem hold there. -/
theorem vault_release_gate_strict_witness :
    (((Vault.mk [("c1", ⟨0, [("s1", ⟨.raw "k", 2, "X25519"⟩)]⟩)] (.raw "mk") 10).GetSecret
        "c1" "s1" 20 (.error .generateFailed)).1 = .error .notReleased ↔
       (20 : Int) - 0 ≤ 2 * 10) ∧
    ((((Vault.mk [("c1", ⟨0, [("s1", ⟨.raw "k", 2, "X25519"⟩)]⟩)] (.raw "mk") 10).DeleteSecret
        "c1" "s1" 20).1 = .ok ()) ↔ (20 : Int) - 0 > 2 * 10) ∧
    ((20 : Int) - 0 = 2 * 10 →
       ((Vault.mk [("c1", ⟨0, [("s1", ⟨.raw "k", 2, "X25519"⟩)]⟩)] (.raw "mk") 10).GetSecret
          "c1" "s1" 20 (.error .generateFailed)).1 = .error .notReleased ∧
       (((Vault.mk [("c1", ⟨0, [("s1", ⟨.raw "k", 2, "X25519"⟩)]⟩)] (.raw "mk") 10).DeleteSecret
          "c1" "s1" 20)).1 = .error .notReleased) :=
  vault_release_gate_strict
    (Vault.mk [("c1", ⟨0, [("s1", ⟨.raw "k", 2, "X25519"⟩)]⟩)] (.raw "mk") 10)
    "c1" "s1" 20 (.error .generateFailed) ⟨0, [("s1", ⟨.raw "k", 2, "X25519"⟩)]⟩
    ⟨.raw "k", 2, "X25519"⟩ (by decide) (by decide)

/-! ## Issuer (state) model — embedded from internal/state/state.go -/

/-- `state.Action` (state.go:28-34). -/
structure StateAction where
  kind : String
  processAfter : Int
  minInterval : Int
  comment : String
  data : GoString
deriving DecidableEq, Repr

/-- The vault URL `url.JoinPath(vaultURL, "api", "vault", "store",
clientUUID, actionUUID)`, modelled by its path components. -/
structure VaultURL where
  base : String
  clientUUID : String
  secretUUID : String
deriving DecidableEq, Repr

/-- `state.EncryptionMeta` (state.go:37-40). -/
structure EncryptionMeta where
  kind : String
  vaultURL : VaultURL
deriving DecidableEq, Repr

/-- `state.EncryptedAction` (state.go:44-50).  `lastRun` is `time.Time`
in nanoseconds, with the Go zero time modelled as `0`. -/
structure EncryptedAction where
  action : StateAction
  uuid : String
  processed : Int
  lastRun : Int
  encryptionMeta : EncryptionMeta
deriving DecidableEq, Repr

/-- `state.data` (state.go:55-58): the persisted JSON document. -/
structure StateData where
  lastSeen : Int
  actions : List EncryptedAction
deriving DecidableEq, Repr

/-- `State.GetAction` (state.go:205-212): first action whose uuid
matches (the returned index always designates this element). -/
def findAction (u : String) : List EncryptedAction → Option EncryptedAction
  | [] => none
  | a :: rest => if a.uuid = u then some a else findAction u rest

/-- In-place mutation `s.data.Actions[i] = ...` at the index returned by
`GetAction`: rewrites the first action whose uuid matches. -/
def updateFirst (u : String) (f : EncryptedAction → EncryptedAction) :
    List EncryptedAction → List EncryptedAction
  | [] => []
  | a :: rest => if a.uuid = u then f a :: rest else a :: updateFirst u f rest

/-- `append(actions[:i], actions[i+1:]...)` at the index returned by
`GetAction`: removes the first action whose uuid matches. -/
def removeFirst (u : String) : List EncryptedAction → List EncryptedAction
  | [] => []
  | a :: rest => if a.uuid = u then rest else a :: removeFirst u rest

/-- Error kinds of the state component, by provenance in state.go. -/
inductive StateErr where
  | missingAction
  | joinPathFailed
  | cryptFailure (e : CryptError)
  | marshalFailed
  | postTransport
  | postStatus (code : Int)
  | deleteTransport
  | deleteStatus (code : Int)
  | getStatus (code : Int)
  | decodeFailed
deriving DecidableEq, Repr

/-- Oracle for the nondeterministic steps of `AddAction`: keypair
generation, `uuid.NewString()`, `url.JoinPath`, `json.Marshal`, and the
`http.Post` outcome (`none` = transport error, `some c` = status `c`). -/
structure AddOracle where
  gen : Except CryptError X25519Identity
  freshUUID : String
  joinOk : Bool
  marshalOk : Bool
  postResp : Option Int
deriving Repr

/-- `State.AddAction` (state.go:142-197).  Returns the call result, the
state document after the call, and the list of persisted snapshots (one
per `save()`).  Every failure path returns before the append, leaving the
document untouched and persisting nothing. -/
def StateAddAction (d : StateData) (vaultURL clientUUID : String)
    (a : StateAction) (o : AddOracle) :
    Except StateErr Unit × StateData × List StateData :=
  match cryptNew (.raw "") o.gen with
  | .error e => (.error (.cryptFailure e), d, [])
  | .ok c =>
    if o.joinOk then
      match c.Encrypt a.data with
      | .error e => (.error (.cryptFailure e), d, [])
      | .ok dataEncrypted =>
        if o.marshalOk then
          match o.postResp with
          | none => (.error .postTransport, d, [])
          | some status =>
            if status = 201 then
              let encrypted : EncryptedAction :=
                { action := { kind := a.kind, processAfter := a.processAfter,
                              minInterval := a.minInterval, comment := a.comment,
                              data := dataEncrypted },
                  uuid := o.freshUUID, processed := 0, lastRun := 0,
                  encryptionMeta :=
                    { kind := "X25519",
                      vaultURL := ⟨vaultURL, clientUUID, o.freshUUID⟩ } }
              let d' : StateData := { d with actions := d.actions ++ [encrypted] }
              (.ok (), d', [d'])
            else (.error (.postStatus status), d, [])
        else (.error .marshalFailed, d, [])
    else (.error .joinPathFailed, d, [])

/-- `State.UpdateLastSeen` (state.go:110-113). -/
def StateUpdateLastSeen (d : StateData) (now : Int) : StateData × List StateData :=
  let d' : StateData := { d with lastSeen := now }
  (d', [d'])

/-- `State.UpdateActionLastRun` (state.go:121-129). -/
def StateUpdateActionLastRun (d : StateData) (u : String) (now : Int) :
    Except StateErr Unit × StateData × List StateData :=
  match findAction u d.actions with
  | none => (.error .missingAction, d, [])
  | some _ =>
    let d' : StateData :=
      { d with actions := updateFirst u (fun a => { a with lastRun := now }) d.actions }
    (.ok (), d', [d'])

/-- `State.DeleteAction` (state.go:215-225). -/
def StateDeleteAction (d : StateData) (u : String) :
    Except StateErr Unit × StateData × List StateData :=
  match findAction u d.actions with
  | none => (.error .missingAction, d, [])
  | some _ =>
    let d' : StateData := { d with actions := removeFirst u d.actions }
    (.ok (), d', [d'])

/-- `State.MarkActionAsProcessed` (state.go:230-260), with the keeper
DELETE outcome passed in (`none` = request/transport error, `some c` =
HTTP status `c`).  Sets processed=1 and persists, issues the DELETE,
treats 200 and 404 as success and only then sets processed=2 and
persists again. -/
def StateMarkActionAsProcessed (d : StateData) (u : String) (resp : Option Int) :
    Except StateErr Unit × StateData × List StateData :=
  match findAction u d.actions with
  | none => (.error .missingAction, d, [])
  | some _ =>
    let d1 : StateData :=
      { d with actions := updateFirst u (fun a => { a with processed := 1 }) d.actions }
    match resp with
    | none => (.error .deleteTransport, d1, [d1])
    | some status =>
      if status = 200 ∨ status = 404 then
        let d2 : StateData :=
          { d1 with actions := updateFirst u (fun a => { a with processed := 2 }) d1.actions }
        (.ok (), d2, [d1, d2])
      else (.error (.deleteStatus status), d1, [d1])

/-! ## HTTP endpoints of the keeper (api.go) and composed issuer calls -/

/-- `getVaultSecretHandler` (api.go:296-313): 423 Locked when the error is
the not-released message, 404 on any other error, 200 with the secret
body on success. -/
def getVaultSecretEndpoint (v : Vault) (clientUUID secretUUID : String)
    (now : Int) (gen : Except CryptError X25519Identity) :
    Int × Option VSecret × Vault :=
  let r := v.GetSecret clientUUID secretUUID now gen
  match r.1 with
  | .ok s => (200, some s, r.2)
  | .error .notReleased => (423, none, r.2)
  | .error _ => (404, none, r.2)

/-- `deleteVaultSecretHandler` (api.go:330-343): 404 on any error
(missing or still gated alike), 200 on success. -/
def deleteVaultSecretEndpoint (v : Vault) (clientUUID secretUUID : String)
    (now : Int) : Int × Vault :=
  let r := v.DeleteSecret clientUUID secretUUID now
  match r.1 with
  | .ok _ => (200, r.2)
  | .error _ => (404, r.2)

/-- `State.MarkActionAsProcessed` composed with the keeper's DELETE
endpoint at the stored vault URL. -/
def markActionAsProcessedK (d : StateData) (v : Vault) (u : String) (now : Int) :
    Except StateErr Unit × StateData × Vault :=
  match findAction u d.actions with
  | none => (.error .missingAction, d, v)
  | some ea =>
    let d1 : StateData :=
      { d with actions := updateFirst u (fun a => { a with processed := 1 }) d.actions }
    let r := deleteVaultSecretEndpoint v ea.encryptionMeta.vaultURL.clientUUID
               ea.encryptionMeta.vaultURL.secretUUID now
    if r.1 = 200 ∨ r.1 = 404 then
      let d2 : StateData :=
        { d1 with actions := updateFirst u (fun a => { a with processed := 2 }) d1.actions }
      (.ok (), d2, r.2)
    else (.error (.deleteStatus r.1), d1, r.2)

/-- `State.DecryptAction` (state.go:264-303) composed with the keeper's
GET endpoint.  `genV`/`genI` are the entropy oracles of the two
`crypt.New` calls (keeper side, issuer side).  The Go code builds the
result with a composite literal that omits `MinInterval`, so that field
carries its zero value. -/
def decryptActionK (d : StateData) (v : Vault) (u : String) (now : Int)
    (genV genI : Except CryptError X25519Identity) :
    Except StateErr StateAction × Vault :=
  match findAction u d.actions with
  | none => (.error .missingAction, v)
  | some ea =>
    let r := getVaultSecretEndpoint v ea.encryptionMeta.vaultURL.clientUUID
               ea.encryptionMeta.vaultURL.secretUUID now genV
    if r.1 = 200 then
      match r.2.1 with
      | none => (.error .decodeFailed, r.2.2)
      | some vsec =>
        match cryptNew vsec.key genI with
        | .error e => (.error (.cryptFailure e), r.2.2)
        | .ok c =>
          match c.Decrypt ea.action.data with
          | .error e => (.error (.cryptFailure e), r.2.2)
          | .ok plain =>
            (.ok { kind := ea.action.kind, processAfter := ea.action.processAfter,
                   minInterval := 0, comment := ea.action.comment, data := plain },
             r.2.2)
    else (.error (.getStatus r.1), r.2.2)

/-- The processed value of the first action with uuid `u`. -/
def processedOf (d : StateData) (u : String) : Option Int :=
  (findAction u d.actions).map (fun a => a.processed)

/-- Rewriting the matching action changes exactly its own lookup. -/
theorem findAction_updateFirst (u : String) (f : EncryptedAction → EncryptedAction)
    (hf : ∀ a, (f a).uuid = a.uuid) (l : List EncryptedAction) :
    findAction u (updateFirst u f l) = (findAction u l).map f := by
  induction l with
  | nil => rfl
  | cons a rest ih =>
    by_cases h : a.uuid = u
    · simp [findAction, updateFirst, h, hf a]
    · simp [findAction, updateFirst, h, ih]

/-- Rewriting a non-matching action leaves the lookup unchanged. -/
theorem findAction_updateFirst_ne (u w : String) (hne : u ≠ w)
    (f : EncryptedAction → EncryptedAction)
    (hf : ∀ a, (f a).uuid = a.uuid) (l : List EncryptedAction) :
    findAction u (updateFirst w f l) = findAction u l := by
  induction l with
  | nil => rfl
  | cons a rest ih =>
    by_cases h : a.uuid = w
    · have hwu : ¬ (w = u) := fun hwu => hne hwu.symm
      simp [findAction, updateFirst, h, hf a, hwu]
    · simp [findAction, updateFirst, h, ih]

/-- The keeper's DELETE endpoint only ever answers 200 or 404. -/
theorem deleteVaultSecretEndpoint_status (v : Vault) (c s : String) (now : Int) :
    (deleteVaultSecretEndpoint v c s now).1 = 200 ∨
    (deleteVaultSecretEndpoint v c s now).1 = 404 := by
  unfold deleteVaultSecretEndpoint
  cases h : (v.DeleteSecret c s now).1 with
  | ok _ => left; simp [h]
  | error _ => right; simp [h]

/-- The two processed updates of MarkActionAsProcessed. -/
def setProcessed (p : Int) (a : EncryptedAction) : EncryptedAction :=
  { a with processed := p }

/-- The lastRun update of UpdateActionLastRun. -/
def setLastRun (t : Int) (a : EncryptedAction) : EncryptedAction :=
  { a with lastRun := t }

/-- `setProcessed` leaves the uuid unchanged. -/
theorem setProcessed_uuid (p : Int) (a : EncryptedAction) :
    (setProcessed p a).uuid = a.uuid := rfl

/-- `setLastRun` leaves the uuid unchanged. -/
theorem setLastRun_uuid (t : Int) (a : EncryptedAction) :
    (setLastRun t a).uuid = a.uuid := rfl

/-- On an existing action, the composed MarkActionAsProcessed always goes
processed 1 then 2, because the keeper endpoint only answers 200 or 404. -/
theorem markK_of_found (d : StateData) (v : Vault) (u : String) (now : Int)
    (ea : EncryptedAction) (h : findAction u d.actions = some ea) :
    markActionAsProcessedK d v u now =
      (.ok (),
       ⟨d.lastSeen,
        updateFirst u (fun a => { a with processed := 2 })
          (updateFirst u (fun a => { a with processed := 1 }) d.actions)⟩,
       (deleteVaultSecretEndpoint v ea.encryptionMeta.vaultURL.clientUUID
          ea.encryptionMeta.vaultURL.secretUUID now).2) := by
  unfold markActionAsProcessedK
  rw [h]
  dsimp only
  rw [if_pos (deleteVaultSecretEndpoint_status v _ _ now)]

/-- C2: MarkActionAsProcessed on an existing action persists processed=1,
then treats a keeper DELETE answer of 200 OK or 404 Not Found as success
(persisting processed=2), returns an error leaving processed=1 on any
other answer, and — composed with the keeper endpoint, which answers only
200 or 404 — succeeds again when called a second time after a successful
first call, still yielding processed=2 and no error. -/
theorem mark_action_processed_idempotent
    (d : StateData) (u : String) (ea : EncryptedAction)
    (h : findAction u d.actions = some ea) :
    (∀ st : Int, st = 200 ∨ st = 404 →
       (StateMarkActionAsProcessed d u (some st)).1 = .ok () ∧
       processedOf (StateMarkActionAsProcessed d u (some st)).2.1 u = some 2 ∧
       (StateMarkActionAsProcessed d u (some st)).2.2.map (fun s => processedOf s u) =
         [some 1, some 2]) ∧
    (∀ st : Int, ¬(st = 200 ∨ st = 404) →
       (StateMarkActionAsProcessed d u (some st)).1 = .error (.deleteStatus st) ∧
       processedOf (StateMarkActionAsProcessed d u (some st)).2.1 u = some 1 ∧
       (StateMarkActionAsProcessed d u (some st)).2.2.map (fun s => processedOf s u) =
         [some 1]) ∧
    (∀ v : Vault, ∀ now now' : Int,
       (markActionAsProcessedK d v u now).1 = .ok () ∧
       (markActionAsProcessedK (markActionAsProcessedK d v u now).2.1
          (markActionAsProcessedK d v u now).2.2 u now').1 = .ok () ∧
       processedOf (markActionAsProcessedK (markActionAsProcessedK d v u now).2.1
          (markActionAsProcessedK d v u now).2.2 u now').2.1 u = some 2) := by
  have hfind1 : findAction u
      (updateFirst u (fun a => { a with processed := (1 : Int) }) d.actions) =
      some { ea with processed := 1 } := by
    rw [findAction_updateFirst u (fun a => { a with processed := (1 : Int) })
      (fun a => rfl), h]
    rfl
  have hfind2 : findAction u
      (updateFirst u (fun a => { a with processed := (2 : Int) })
        (updateFirst u (fun a => { a with processed := (1 : Int) }) d.actions)) =
      some { ea with processed := 2 } := by
    rw [findAction_updateFirst u (fun a => { a with processed := (2 : Int) })
      (fun a => rfl), hfind1]
    rfl
  refine ⟨?_, ?_, ?_⟩
  · intro st hst
    unfold StateMarkActionAsProcessed
    rw [h]
    dsimp only
    rw [if_pos hst]
    refine ⟨rfl, ?_, ?_⟩
    · simp [processedOf, hfind2]
    · simp [processedOf, hfind1, hfind2]
  · intro st hst
    unfold StateMarkActionAsProcessed
    rw [h]
    dsimp only
    rw [if_neg hst]
    refine ⟨rfl, ?_, ?_⟩
    · simp [processedOf, hfind1]
    · simp [processedOf, hfind1]
  · intro v now now'
    rw [markK_of_found d v u now ea h]
    dsimp only
    rw [markK_of_found _ _ u now' { ea with processed := 2 } hfind2]
    dsimp only
    have hfind3 : findAction u
        (updateFirst u (fun a => { a with processed := (1 : Int) })
          (updateFirst u (fun a => { a with processed := (2 : Int) })
            (updateFirst u (fun a => { a with processed := (1 : Int) }) d.actions))) =
        some { ea with processed := 1 } := by
      rw [findAction_updateFirst u (fun a => { a with processed := (1 : Int) })
        (fun a => rfl), hfind2]
      rfl
    have hfind4 : findAction u
        (updateFirst u (fun a => { a with processed := (2 : Int) })
          (updateFirst u (fun a => { a with processed := (1 : Int) })
            (updateFirst u (fun a => { a with processed := (2 : Int) })
              (updateFirst u (fun a => { a with processed := (1 : Int) }) d.actions)))) =
        some { ea with processed := 2 } := by
      rw [findAction_updateFirst u (fun a => { a with processed := (2 : Int) })
        (fun a => rfl), hfind3]
      rfl
    refine ⟨rfl, rfl, ?_⟩
    simp [processedOf, hfind4]

/-- Concrete one-action store used to witness C2. -/
def c2d : StateData :=
  ⟨0, [⟨⟨"dummy", 1, 0, "c", .raw "x"⟩, "u1", 0, 0, ⟨"X25519", ⟨"b", "c1", "u1"⟩⟩⟩]⟩

/-- Concrete empty keeper used to witness C2. -/
def c2v : Vault := ⟨[], .raw "mk", 1⟩

/-- Witness for C2 at the concrete store, exercising keeper answers 200,
500, and the composed endpoint twice. -/
theorem mark_action_processed_idempotent_witness :
    ((StateMarkActionAsProcessed c2d "u1" (some 200)).1 = .ok () ∧
     processedOf (StateMarkActionAsProcessed c2d "u1" (some 200)).2.1 "u1" = some 2 ∧
     (StateMarkActionAsProcessed c2d "u1" (some 200)).2.2.map
        (fun s => processedOf s "u1") = [some 1, some 2]) ∧
    ((StateMarkActionAsProcessed c2d "u1" (some 500)).1 = .error (.deleteStatus 500) ∧
     processedOf (StateMarkActionAsProcessed c2d "u1" (some 500)).2.1 "u1" = some 1 ∧
     (StateMarkActionAsProcessed c2d "u1" (some 500)).2.2.map
        (fun s => processedOf s "u1") = [some 1]) ∧
    ((markActionAsProcessedK c2d c2v "u1" 5).1 = .ok () ∧
     (markActionAsProcessedK (markActionAsProcessedK c2d c2v "u1" 5).2.1
        (markActionAsProcessedK c2d c2v "u1" 5).2.2 "u1" 7).1 = .ok () ∧
     processedOf (markActionAsProcessedK (markActionAsProcessedK c2d c2v "u1" 5).2.1
        (markActionAsProcessedK c2d c2v "u1" 5).2.2 "u1" 7).2.1 "u1" = some 2) := by
  have T := mark_action_processed_idempotent c2d "u1"
    ⟨⟨"dummy", 1, 0, "c", .raw "x"⟩, "u1", 0, 0, ⟨"X25519", ⟨"b", "c1", "u1"⟩⟩⟩
    (by decide)
  exact ⟨T.1 200 (Or.inl rfl), T.2.1 500 (by decide), T.2.2 c2v 5 7⟩

/-- C3: AddAction is atomic with respect to the action list.  The call
succeeds exactly when keypair generation, URL join, encryption (non-empty
data), marshalling and the keeper POST all succeed and the POST status is
201 Created; on any failure the document is unchanged and nothing is
persisted; on success exactly one EncryptedAction is appended, with
processed=0 and zero lastRun, and the new document is persisted. -/
theorem add_action_atomic
    (d : StateData) (vaultURL clientUUID : String) (a : StateAction) (o : AddOracle) :
    ((StateAddAction d vaultURL clientUUID a o).1 = .ok () ↔
       ((∃ i, o.gen = .ok i) ∧ o.joinOk = true ∧ a.data.isEmptyStr = false ∧
        o.marshalOk = true ∧ o.postResp = some 201)) ∧
    ((StateAddAction d vaultURL clientUUID a o).1 ≠ .ok () →
       (StateAddAction d vaultURL clientUUID a o).2.1 = d ∧
       (StateAddAction d vaultURL clientUUID a o).2.2 = []) ∧
    ((StateAddAction d vaultURL clientUUID a o).1 = .ok () →
       ∃ dataEnc,
         (StateAddAction d vaultURL clientUUID a o).2.1.actions =
           d.actions ++
             [⟨⟨a.kind, a.processAfter, a.minInterval, a.comment, dataEnc⟩,
               o.freshUUID, 0, 0, ⟨"X25519", ⟨vaultURL, clientUUID, o.freshUUID⟩⟩⟩] ∧
         (StateAddAction d vaultURL clientUUID a o).2.1.lastSeen = d.lastSeen ∧
         (StateAddAction d vaultURL clientUUID a o).2.2 =
           [(StateAddAction d vaultURL clientUUID a o).2.1]) := by
  have hcnE : ∀ e : CryptError,
      cryptNew (.raw "") (.error e) = .error e := fun _ => rfl
  have hcnO : ∀ i : X25519Identity,
      cryptNew (.raw "") (.ok i) = .ok (Crypt.mk i) := fun _ => rfl
  obtain ⟨gen, fu, jo, mo, pr⟩ := o
  cases gen with
  | error e =>
    refine ⟨?_, ?_, ?_⟩ <;> simp [StateAddAction, hcnE]
  | ok i =>
    cases jo with
    | false =>
      refine ⟨?_, ?_, ?_⟩ <;> simp [StateAddAction, hcnO]
    | true =>
      cases hd : a.data.isEmptyStr with
      | true =>
        have hEnc : (Crypt.mk i).Encrypt a.data = .error .emptyData := by
          unfold Crypt.Encrypt
          rw [hd]
          simp
        refine ⟨?_, ?_, ?_⟩ <;> simp [StateAddAction, hcnO, hEnc, hd]
      | false =>
        have hEnc : (Crypt.mk i).Encrypt a.data =
            .ok (.cipherB64 (Crypt.mk i).identity.recipient a.data) := by
          unfold Crypt.Encrypt
          rw [hd]
          simp
        cases mo with
        | false =>
          refine ⟨?_, ?_, ?_⟩ <;> simp [StateAddAction, hcnO, hEnc, hd]
        | true =>
          cases pr with
          | none =>
            refine ⟨?_, ?_, ?_⟩ <;> simp [StateAddAction, hcnO, hEnc, hd]
          | some st =>
            by_cases hst : st = 201
            · subst hst
              refine ⟨?_, ?_, ?_⟩ <;> simp [StateAddAction, hcnO, hEnc, hd]
            · refine ⟨?_, ?_, ?_⟩ <;> simp [StateAddAction, hcnO, hEnc, hd, hst]

/-- Witness for C3: a concrete successful add (all oracle steps succeed,
POST answers 201) appends exactly one action with processed=0 and zero
lastRun, and persists the new document. -/
theorem add_action_atomic_witness :
    ∃ dataEnc,
      (StateAddAction ⟨0, []⟩ "b" "c1" ⟨"mail", 2, 3, "cm", .raw "pl"⟩
        ⟨.ok ⟨"gk"⟩, "u9", true, true, some 201⟩).2.1.actions =
        [⟨⟨"mail", 2, 3, "cm", dataEnc⟩, "u9", 0, 0, ⟨"X25519", ⟨"b", "c1", "u9"⟩⟩⟩] ∧
      (StateAddAction ⟨0, []⟩ "b" "c1" ⟨"mail", 2, 3, "cm", .raw "pl"⟩
        ⟨.ok ⟨"gk"⟩, "u9", true, true, some 201⟩).2.1.lastSeen = 0 ∧
      (StateAddAction ⟨0, []⟩ "b" "c1" ⟨"mail", 2, 3, "cm", .raw "pl"⟩
        ⟨.ok ⟨"gk"⟩, "u9", true, true, some 201⟩).2.2 =
        [(StateAddAction ⟨0, []⟩ "b" "c1" ⟨"mail", 2, 3, "cm", .raw "pl"⟩
           ⟨.ok ⟨"gk"⟩, "u9", true, true, some 201⟩).2.1] :=
  (add_action_atomic ⟨0, []⟩ "b" "c1" ⟨"mail", 2, 3, "cm", .raw "pl"⟩
    ⟨.ok ⟨"gk"⟩, "u9", true, true, some 201⟩).2.2 rfl

/-- C10: a successful DecryptAction builds its result with a composite
literal that copies only Kind, ProcessAfter, Comment and the decrypted
Data from the stored action; MinInterval is left at its zero value
regardless of the stored minInterval. -/
theorem decrypt_action_min_interval_zero
    (d : StateData) (v : Vault) (u : String) (now : Int)
    (genV genI : Except CryptError X25519Identity)
    (ea : EncryptedAction) (act : StateAction) (v' : Vault)
    (h : findAction u d.actions = some ea)
    (hr : decryptActionK d v u now genV genI = (.ok act, v')) :
    act.minInterval = 0 ∧ act.kind = ea.action.kind ∧
    act.processAfter = ea.action.processAfter ∧ act.comment = ea.action.comment ∧
    act = ⟨ea.action.kind, ea.action.processAfter, 0, ea.action.comment, act.data⟩ := by
  unfold decryptActionK at hr
  rw [h] at hr
  dsimp only at hr
  generalize hG : getVaultSecretEndpoint v ea.encryptionMeta.vaultURL.clientUUID
      ea.encryptionMeta.vaultURL.secretUUID now genV = R at hr
  obtain ⟨st, body, v2⟩ := R
  dsimp only at hr
  by_cases hst : st = 200
  · rw [if_pos hst] at hr
    cases body with
    | none => simp at hr
    | some vsec =>
      dsimp only at hr
      cases hcn : cryptNew vsec.key genI with
      | error e => rw [hcn] at hr; simp at hr
      | ok c =>
        rw [hcn] at hr
        dsimp only at hr
        cases hdk : c.Decrypt ea.action.data with
        | error e => rw [hdk] at hr; simp at hr
        | ok plain =>
          rw [hdk] at hr
          dsimp only at hr
          have hact : (Except.ok
              (⟨ea.action.kind, ea.action.processAfter, 0, ea.action.comment, plain⟩ :
                StateAction) : Except StateErr StateAction) = .ok act :=
            congrArg Prod.fst hr
          injection hact with hact2
          subst hact2
          exact ⟨rfl, rfl, rfl, rfl, rfl⟩
  · rw [if_neg hst] at hr
    simp at hr

/-- Stored action used to witness C10: its minInterval is 5. -/
def c10ea : EncryptedAction :=
  ⟨⟨"json_post", 1, 5, "cm", .cipherB64 ⟨"ik"⟩ (.raw "payload")⟩, "u1", 0, 0,
   ⟨"X25519", ⟨"http://v", "c1", "u1"⟩⟩⟩

/-- Issuer store used to witness C10. -/
def c10d : StateData := ⟨0, [c10ea]⟩

/-- Keeper used to witness C10: holds the matching key, master-encrypted,
already released at the query time. -/
def c10v : Vault :=
  ⟨[("c1", ⟨0, [("u1", ⟨.cipherB64 ⟨"mk"⟩ (.raw "ik"), 1, "X25519"⟩)]⟩)], .raw "mk", 1⟩

/-- Witness for C10: the concrete decrypt succeeds and the result carries
minInterval 0 although the stored action has minInterval 5. -/
theorem decrypt_action_min_interval_zero_witness :
    (⟨"json_post", 1, 0, "cm", .raw "payload"⟩ : StateAction).minInterval = 0 ∧
    (⟨"json_post", 1, 0, "cm", .raw "payload"⟩ : StateAction).kind = c10ea.action.kind ∧
    (⟨"json_post", 1, 0, "cm", .raw "payload"⟩ : StateAction).processAfter =
      c10ea.action.processAfter ∧
    (⟨"json_post", 1, 0, "cm", .raw "payload"⟩ : StateAction).comment =
      c10ea.action.comment ∧
    (⟨"json_post", 1, 0, "cm", .raw "payload"⟩ : StateAction) =
      ⟨c10ea.action.kind, c10ea.action.processAfter, 0, c10ea.action.comment,
       (⟨"json_post", 1, 0, "cm", .raw "payload"⟩ : StateAction).data⟩ :=
  decrypt_action_min_interval_zero c10d c10v "u1" 10
    (.error .generateFailed) (.error .generateFailed) c10ea
    ⟨"json_post", 1, 0, "cm", .raw "payload"⟩ c10v (by decide) rfl

/-! ## Issuer HTTP API (api.go) -/

/-- `addTestActionRequest` (api.go:170-176). -/
structure AddTestActionRequest where
  kind : String
  data : GoString
  comment : String
  processAfter : Int
  minInterval : Int
deriving DecidableEq, Repr

/-- Validation errors of `addTestActionRequest.Bind`. -/
inductive BindErr where
  | unmarshalFailed
  | processAfterNotPositive
  | minIntervalNegative
deriving DecidableEq, Repr

/-- `addTestActionRequest.Bind` (api.go:179-199).  `unmarshalOk` is the
outcome of `execute.UnmarshalActionData` on the request's kind/data
(external plugin validation); then `process_after <= 0` and
`min_interval < 0` are rejected in that order. -/
def addTestActionRequestBind (req : AddTestActionRequest) (unmarshalOk : Bool) :
    Option BindErr :=
  if unmarshalOk = false then some .unmarshalFailed
  else if req.processAfter ≤ 0 then some .processAfterNotPositive
  else if req.minInterval < 0 then some .minIntervalNegative
  else none

/-- `addActionHandler` (api.go:202-227): on a Bind error it renders 400
Invalid request and returns without touching the store; otherwise it
calls `AddAction` and renders 201 on success, 500 on error.  The returned
Bool records whether `AddAction` was reached. -/
def addActionEndpoint (req : AddTestActionRequest) (unmarshalOk : Bool)
    (d : StateData) (vaultURL clientUUID : String) (o : AddOracle) :
    Int × StateData × Bool :=
  match addTestActionRequestBind req unmarshalOk with
  | some _ => (400, d, false)
  | none =>
    let a : StateAction := ⟨req.kind, req.processAfter, req.minInterval,
                            req.comment, req.data⟩
    match StateAddAction d vaultURL clientUUID a o with
    | (.ok _, d', _) => (201, d', true)
    | (.error _, d', _) => (500, d', true)

/-- C9: every request with `process_after <= 0` or `min_interval < 0` is
rejected by Bind, the handler answers 400 Invalid request, and AddAction
is never reached (the store is untouched). -/
theorem add_request_validation_rejects
    (req : AddTestActionRequest)
    (hbad : req.processAfter ≤ 0 ∨ req.minInterval < 0) :
    ∀ (um : Bool) (d : StateData) (vaultURL clientUUID : String) (o : AddOracle),
      (addTestActionRequestBind req um).isSome = true ∧
      addActionEndpoint req um d vaultURL clientUUID o = (400, d, false) := by
  intro um d vaultURL clientUUID o
  have hb : (addTestActionRequestBind req um).isSome = true := by
    unfold addTestActionRequestBind
    cases um with
    | false => simp
    | true =>
      rcases hbad with hpa | hmi
      · simp [hpa]
      · by_cases hpa : req.processAfter ≤ 0 <;> simp [hpa, hmi]
  refine ⟨hb, ?_⟩
  unfold addActionEndpoint
  cases hbind : addTestActionRequestBind req um with
  | none => rw [hbind] at hb; simp at hb
  | some e => rfl

/-- Witness for C9: the request with process_after = 0 is rejected. -/
theorem add_request_validation_rejects_witness :
    (addTestActionRequestBind ⟨"mail", .raw "x", "c", 0, 0⟩ true).isSome = true ∧
    addActionEndpoint ⟨"mail", .raw "x", "c", 0, 0⟩ true ⟨0, []⟩ "b" "c1"
      ⟨.ok ⟨"gk"⟩, "u9", true, true, some 201⟩ = (400, ⟨0, []⟩, false) :=
  add_request_validation_rejects ⟨"mail", .raw "x", "c", 0, 0⟩ (Or.inl (by decide))
    true ⟨0, []⟩ "b" "c1" ⟨.ok ⟨"gk"⟩, "u9", true, true, some 201⟩

/-! ## Persistence: the file operations of save() -/

/-- A file-system operation, for describing how `save` writes state. -/
inductive FsOp where
  | create (path : String)
  | writeAll (path : String)
  | fsync (path : String)
  | rename (src dst : String)
deriving DecidableEq, Repr

/-- `State.save` (state.go:307-318): `os.Create(savePath)` — which
truncates the file in place — followed by encoding the document into it.
No temporary file, no fsync, no rename. -/
def stateSaveOps (savePath : String) : List FsOp :=
  [.create savePath, .writeAll savePath]

/-- `Vault.save` (vault section of dummy_test.go:979-990): identical
pattern to `State.save`. -/
def vaultSaveOps (savePath : String) : List FsOp :=
  [.create savePath, .writeAll savePath]

/-- The write pattern claimed by the spec: create a new (temporary) file,
fsync it, and rename it over the target. -/
def AtomicReplacePattern (ops : List FsOp) (target : String) : Prop :=
  ∃ tmp, FsOp.create tmp ∈ ops ∧ FsOp.fsync tmp ∈ ops ∧
    FsOp.rename tmp target ∈ ops

/-- C4 counterexample: at the concrete save path, neither State.save nor
Vault.save performs the create/fsync/rename atomic-replace pattern — the
op list contains no fsync and no rename at all. -/
theorem save_not_atomic_replace :
    ¬ AtomicReplacePattern (stateSaveOps "state.json") "state.json" ∧
    ¬ AtomicReplacePattern (vaultSaveOps "vault.json") "vault.json" := by
  constructor
  · rintro ⟨tmp, -, hf, -⟩
    simp [stateSaveOps] at hf
  · rintro ⟨tmp, -, hf, -⟩
    simp [vaultSaveOps] at hf

/-- C4 amended: every mutation persists by truncating the live save path
in place (`os.Create`) and writing the whole encoded document; there is
no fsync and no rename, so a crash mid-write can leave a truncated
document on disk. -/
theorem save_truncates_in_place (p : String) :
    stateSaveOps p = [.create p, .writeAll p] ∧
    vaultSaveOps p = [.create p, .writeAll p] ∧
    (∀ op ∈ stateSaveOps p, op ≠ .fsync p ∧ ∀ src, op ≠ .rename src p) ∧
    (∀ op ∈ vaultSaveOps p, op ≠ .fsync p ∧ ∀ src, op ≠ .rename src p) := by
  refine ⟨rfl, rfl, ?_, ?_⟩ <;>
    · intro op hop
      simp [stateSaveOps, vaultSaveOps] at hop
      rcases hop with h | h <;> subst h <;> exact ⟨by simp, fun src => by simp⟩

/-- Witness for the amended C4 statement at a concrete path and op. -/
theorem save_truncates_in_place_witness :
    stateSaveOps "s.json" = [.create "s.json", .writeAll "s.json"] ∧
    (FsOp.create "s.json" ≠ .fsync "s.json" ∧
     ∀ src, FsOp.create "s.json" ≠ .rename src "s.json") :=
  ⟨(save_truncates_in_place "s.json").1,
   (save_truncates_in_place "s.json").2.2.1 (.create "s.json")
     (by simp [stateSaveOps])⟩

/-! ## Sequences of store operations and persisted-state traces (C5) -/

/-- A public mutator of the issuer store, with its oracle inputs. -/
inductive StoreOp where
  | add (vaultURL clientUUID : String) (a : StateAction) (o : AddOracle)
  | updateLastRun (u : String) (now : Int)
  | mark (u : String) (resp : Option Int)
  | delete (u : String)
  | updateLastSeen (now : Int)

/-- Run one operation: final document and persisted snapshots. -/
def runOp (d : StateData) : StoreOp → StateData × List StateData
  | .add vu cu a o => (StateAddAction d vu cu a o).2
  | .updateLastRun u now => (StateUpdateActionLastRun d u now).2
  | .mark u resp => (StateMarkActionAsProcessed d u resp).2
  | .delete u => (StateDeleteAction d u).2
  | .updateLastSeen now => StateUpdateLastSeen d now

/-- Run a sequence of operations, concatenating persisted snapshots. -/
def runOps (d : StateData) : List StoreOp → StateData × List StateData
  | [] => (d, [])
  | op :: rest =>
    let r := runOp d op
    let r' := runOps r.1 rest
    (r'.1, r.2 ++ r'.2)

/-- The sequence of on-disk documents: the initial one followed by every
persisted snapshot. -/
def persistTrace (d : StateData) (ops : List StoreOp) : List StateData :=
  d :: (runOps d ops).2

/-- One monotonicity step for uuid `u`: whenever `u` is present in two
consecutive persisted documents, its processed value does not decrease. -/
def stepOkB (u : String) (d1 d2 : StateData) : Bool :=
  match processedOf d1 u, processedOf d2 u with
  | some p1, some p2 => p1 ≤ p2
  | _, _ => true

/-- Pairwise-consecutive check of a relation along a list. -/
def chainB {α : Type} (r : α → α → Bool) : List α → Bool
  | [] => true
  | [_] => true
  | a :: b :: rest => r a b && chainB r (b :: rest)

/-- `processed` of uuid `u` is monotonic non-decreasing along the whole
persisted trace of `ops` started from `d`. -/
def monotonePer (u : String) (d : StateData) (ops : List StoreOp) : Bool :=
  chainB (stepOkB u) (persistTrace d ops)

/-- The uuid column of an action list. -/
def uuids (l : List EncryptedAction) : List String :=
  l.map fun a => a.uuid

/-- Precondition under which the amended C5 holds: every `mark` is issued
while the target's processed is at most 1 (as the dispatcher guarantees by
skipping processed=2 actions), and every `add` uses a uuid not already in
the store (as `uuid.NewString()` guarantees). -/
def OkOps (d : StateData) : List StoreOp → Prop
  | [] => True
  | op :: rest =>
    (match op with
     | .mark u _ => (processedOf d u).getD 0 ≤ 1
     | .add _ _ _ o => o.freshUUID ∉ uuids d.actions
     | _ => True) ∧ OkOps (runOp d op).1 rest

/-- Concrete one-action store used for the C5 counterexample. -/
def c5d : StateData :=
  ⟨0, [⟨⟨"dummy", 1, 0, "c", .raw "x"⟩, "w1", 0, 0, ⟨"X25519", ⟨"b", "c1", "w1"⟩⟩⟩]⟩

/-- C5 counterexample: marking the same action twice (both DELETE answers
successful: 200 then 404) persists processed values 0,1,2,1,2 — the
fourth persisted document has processed=1 after the third had 2, so the
claimed monotonicity over every intermediate persisted state is false. -/
theorem processed_monotone_counterexample :
    monotonePer "w1" c5d [.mark "w1" (some 200), .mark "w1" (some 404)] = false ∧
    (persistTrace c5d [.mark "w1" (some 200), .mark "w1" (some 404)]).map
      (fun s => processedOf s "w1") =
      [some 0, some 1, some 2, some 1, some 2] := by
  constructor <;> rfl

/-- A uuid that is absent from the list is never found. -/
theorem findAction_of_not_mem (u : String) (l : List EncryptedAction)
    (h : u ∉ uuids l) : findAction u l = none := by
  induction l with
  | nil => rfl
  | cons a rest ih =>
    simp only [uuids, List.map_cons, List.mem_cons, not_or] at h
    have ha : ¬ (a.uuid = u) := fun hau => h.1 hau.symm
    have hr : u ∉ uuids rest := by simpa [uuids] using h.2
    simp [findAction, ha, ih hr]

/-- Removing the first `w`-action does not affect other lookups. -/
theorem findAction_removeFirst_ne (u w : String) (h : u ≠ w)
    (l : List EncryptedAction) :
    findAction u (removeFirst w l) = findAction u l := by
  induction l with
  | nil => rfl
  | cons a rest ih =>
    have hwu : ¬ (w = u) := fun e => h e.symm
    by_cases hw : a.uuid = w
    · have hau : ¬ (a.uuid = u) := fun hu => h (hu ▸ hw)
      simp [removeFirst, findAction, hw, hau, hwu]
    · by_cases hu : a.uuid = u <;> simp [removeFirst, findAction, hw, hu, h, ih]

/-- With distinct uuids, removing the `u`-action removes the only one. -/
theorem findAction_removeFirst_self (u : String) (l : List EncryptedAction)
    (hnd : (uuids l).Nodup) : findAction u (removeFirst u l) = none := by
  induction l with
  | nil => rfl
  | cons a rest ih =>
    simp [uuids] at hnd
    by_cases hu : a.uuid = u
    · simp [removeFirst, hu]
      exact findAction_of_not_mem u rest (by simpa [uuids, hu] using hnd.1)
    · simp [removeFirst, findAction, hu, ih hnd.2]

/-- Lookup in an appended list: the left part wins. -/
theorem findAction_append (u : String) (l1 l2 : List EncryptedAction) :
    findAction u (l1 ++ l2) =
      match findAction u l1 with
      | some a => some a
      | none => findAction u l2 := by
  induction l1 with
  | nil => rfl
  | cons a rest ih =>
    by_cases hu : a.uuid = u <;> simp [findAction, hu, ih]

/-- `updateFirst` with a uuid-preserving function keeps the uuid column. -/
theorem uuids_updateFirst (w : String) (f : EncryptedAction → EncryptedAction)
    (hf : ∀ a, (f a).uuid = a.uuid) (l : List EncryptedAction) :
    uuids (updateFirst w f l) = uuids l := by
  induction l with
  | nil => rfl
  | cons a rest ih =>
    by_cases hw : a.uuid = w <;> simp [updateFirst, uuids, hw, hf] <;>
      simpa [uuids] using ih

/-- The uuid column of `removeFirst` is a sublist of the original. -/
theorem uuids_removeFirst_sublist (w : String) (l : List EncryptedAction) :
    (uuids (removeFirst w l)).Sublist (uuids l) := by
  induction l with
  | nil => simp [removeFirst, uuids]
  | cons a rest ih =>
    by_cases hw : a.uuid = w
    · simp only [removeFirst, hw, if_true, uuids, List.map_cons]
      exact (List.sublist_cons_self _ _)
    · simp only [removeFirst, hw, if_false, uuids, List.map_cons]
      exact List.Sublist.cons₂ _ (by simpa [uuids] using ih)

/-- A step between documents with equal lookup is monotone. -/
theorem stepOkB_of_eq (u : String) (d1 d2 : StateData)
    (h : processedOf d1 u = processedOf d2 u) : stepOkB u d1 d2 = true := by
  unfold stepOkB
  rw [h]
  cases processedOf d2 u with
  | none => rfl
  | some p => simp

/-- A step that does not decrease the processed value is monotone. -/
theorem stepOkB_of_le (u : String) (d1 d2 : StateData) (p1 p2 : Int)
    (h1 : processedOf d1 u = some p1) (h2 : processedOf d2 u = some p2)
    (hle : p1 ≤ p2) : stepOkB u d1 d2 = true := by
  unfold stepOkB
  rw [h1, h2]
  simpa using hle

/-- A step from a document that does not hold `u` is monotone. -/
theorem stepOkB_of_none (u : String) (d1 d2 : StateData)
    (h : processedOf d1 u = none) : stepOkB u d1 d2 = true := by
  unfold stepOkB
  rw [h]

/-- A step to a document that does not hold `u` is monotone. -/
theorem stepOkB_of_none2 (u : String) (d1 d2 : StateData)
    (h : processedOf d2 u = none) : stepOkB u d1 d2 = true := by
  unfold stepOkB
  rw [h]
  cases processedOf d1 u <;> rfl

/-- `chainB` peels one step off a two-or-more list. -/
theorem chainB_cons_cons {α : Type} (r : α → α → Bool) (a b : α) (l : List α) :
    chainB r (a :: b :: l) = (r a b && chainB r (b :: l)) := rfl

/-- `processedOf` on an explicit document. -/
theorem processedOf_mk (ls : Int) (l : List EncryptedAction) (u : String) :
    processedOf ⟨ls, l⟩ u = (findAction u l).map (fun a => a.processed) := rfl

/-- Setting processed of the `w`-action to `p` makes its lookup `p`. -/
theorem processedOf_set_self (ls : Int) (l : List EncryptedAction) (w : String)
    (p : Int) (ea : EncryptedAction) (hf : findAction w l = some ea) :
    processedOf ⟨ls, updateFirst w (fun a => { a with processed := p }) l⟩ w = some p := by
  rw [processedOf_mk,
    findAction_updateFirst w (fun a => { a with processed := p }) (fun a => rfl), hf]
  rfl

/-- Setting processed of the `w`-action does not affect other uuids. -/
theorem processedOf_set_ne (ls ls' : Int) (l : List EncryptedAction) (w u : String)
    (hne : u ≠ w) (p : Int) :
    processedOf ⟨ls, updateFirst w (fun a => { a with processed := p }) l⟩ u =
      processedOf ⟨ls', l⟩ u := by
  rw [processedOf_mk, processedOf_mk,
    findAction_updateFirst_ne u w hne (fun a => { a with processed := p }) (fun a => rfl)]

/-- Updating lastRun never changes any processed lookup. -/
theorem processedOf_setLastRun (ls ls' : Int) (l : List EncryptedAction)
    (w : String) (now : Int) (u : String) :
    processedOf ⟨ls, updateFirst w (fun a => { a with lastRun := now }) l⟩ u =
      processedOf ⟨ls', l⟩ u := by
  by_cases hw : u = w
  · subst hw
    rw [processedOf_mk, processedOf_mk,
      findAction_updateFirst u (fun a => { a with lastRun := now }) (fun a => rfl)]
    cases findAction u l <;> rfl
  · rw [processedOf_mk, processedOf_mk,
      findAction_updateFirst_ne u w hw (fun a => { a with lastRun := now }) (fun a => rfl)]

/-- AddAction either leaves the document untouched persisting nothing, or
appends exactly one fresh action with processed=0 and persists once. -/
theorem addAction_snd_cases (d : StateData) (vu cu : String) (a : StateAction)
    (o : AddOracle) :
    (StateAddAction d vu cu a o).2 = (d, []) ∨
    ∃ enc : EncryptedAction, enc.uuid = o.freshUUID ∧ enc.processed = 0 ∧
      (StateAddAction d vu cu a o).2 =
        (⟨d.lastSeen, d.actions ++ [enc]⟩, [⟨d.lastSeen, d.actions ++ [enc]⟩]) := by
  have hcnE : ∀ e : CryptError,
      cryptNew (.raw "") (.error e) = .error e := fun _ => rfl
  have hcnO : ∀ i : X25519Identity,
      cryptNew (.raw "") (.ok i) = .ok (Crypt.mk i) := fun _ => rfl
  obtain ⟨gen, fu, jo, mo, pr⟩ := o
  cases gen with
  | error e => left; simp [StateAddAction, hcnE]
  | ok i =>
    cases jo with
    | false => left; simp [StateAddAction, hcnO]
    | true =>
      cases hd : a.data.isEmptyStr with
      | true =>
        have hEnc : (Crypt.mk i).Encrypt a.data = .error .emptyData := by
          unfold Crypt.Encrypt
          rw [hd]
          simp
        left; simp [StateAddAction, hcnO, hEnc]
      | false =>
        have hEnc : (Crypt.mk i).Encrypt a.data =
            .ok (.cipherB64 (Crypt.mk i).identity.recipient a.data) := by
          unfold Crypt.Encrypt
          rw [hd]
          simp
        cases mo with
        | false => left; simp [StateAddAction, hcnO, hEnc]
        | true =>
          cases pr with
          | none => left; simp [StateAddAction, hcnO, hEnc]
          | some st =>
            by_cases hst : st = 201
            · subst hst
              right
              refine ⟨⟨⟨a.kind, a.processAfter, a.minInterval, a.comment,
                  .cipherB64 (Crypt.mk i).identity.recipient a.data⟩,
                  fu, 0, 0, ⟨"X25519", ⟨vu, cu, fu⟩⟩⟩, rfl, rfl, ?_⟩
              simp [StateAddAction, hcnO, hEnc]
            · left; simp [StateAddAction, hcnO, hEnc, hst]

/-- The uuid column of an append. -/
theorem uuids_append_one (l : List EncryptedAction) (e : EncryptedAction) :
    uuids (l ++ [e]) = uuids l ++ [e.uuid] := by
  simp [uuids]

/-- C5 amended: along every sequence of store operations in which each
MarkActionAsProcessed targets an action whose processed is at most 1 (as
the dispatcher guarantees by skipping processed=2 actions) and each
AddAction uses a uuid not already present (as uuid.NewString guarantees),
the processed value of every uuid is monotonic non-decreasing across all
consecutive persisted documents, the intermediate snapshot inside
MarkActionAsProcessed included. -/
theorem processed_monotone_amended (u : String) (ops : List StoreOp) :
    ∀ d : StateData, (uuids d.actions).Nodup → OkOps d ops →
      monotonePer u d ops = true := by
  induction ops with
  | nil => intro d _ _; rfl
  | cons op rest ih =>
    intro d hnd hok
    obtain ⟨hop, hrest⟩ := hok
    show chainB (stepOkB u)
      (d :: ((runOp d op).2 ++ (runOps (runOp d op).1 rest).2)) = true
    cases op with
    | updateLastSeen now =>
      have hrun : runOp d (.updateLastSeen now) =
          (⟨now, d.actions⟩, [⟨now, d.actions⟩]) := rfl
      rw [hrun]
      simp only [List.singleton_append]
      rw [chainB_cons_cons]
      simp only [Bool.and_eq_true]
      exact ⟨stepOkB_of_eq u d ⟨now, d.actions⟩ rfl, ih ⟨now, d.actions⟩ hnd hrest⟩
    | updateLastRun w now =>
      cases hf : findAction w d.actions with
      | none =>
        have hrun : runOp d (.updateLastRun w now) = (d, []) := by
          unfold runOp StateUpdateActionLastRun
          dsimp only
          rw [hf]
        rw [hrun] at hrest ⊢
        simp only [List.nil_append]
        exact ih d hnd hrest
      | some ea =>
        have hrun : runOp d (.updateLastRun w now) =
            (⟨d.lastSeen, updateFirst w (fun a => { a with lastRun := now }) d.actions⟩,
             [⟨d.lastSeen, updateFirst w (fun a => { a with lastRun := now }) d.actions⟩]) := by
          unfold runOp StateUpdateActionLastRun
          dsimp only
          rw [hf]
        rw [hrun] at hrest ⊢
        simp only [List.singleton_append]
        rw [chainB_cons_cons]
        simp only [Bool.and_eq_true]
        refine ⟨stepOkB_of_eq u d _
          ((processedOf_setLastRun d.lastSeen d.lastSeen d.actions w now u).symm), ?_⟩
        refine ih _ ?_ hrest
        show (uuids (updateFirst w (fun a => { a with lastRun := now }) d.actions)).Nodup
        rw [uuids_updateFirst w (fun a => { a with lastRun := now }) (fun a => rfl)]
        exact hnd
    | mark w resp =>
      cases hf : findAction w d.actions with
      | none =>
        have hrun : runOp d (.mark w resp) = (d, []) := by
          unfold runOp StateMarkActionAsProcessed
          dsimp only
          rw [hf]
        rw [hrun] at hrest ⊢
        simp only [List.nil_append]
        exact ih d hnd hrest
      | some ea =>
        have hpw : processedOf d w = some ea.processed := by
          simp [processedOf, hf]
        have hple : ea.processed ≤ 1 := by
          dsimp only at hop
          rw [hpw] at hop
          simpa using hop
        have hpd1 : processedOf
            ⟨d.lastSeen, updateFirst w (fun a => { a with processed := 1 }) d.actions⟩ w =
            some 1 := processedOf_set_self d.lastSeen d.actions w 1 ea hf
        have step1 : stepOkB u d
            ⟨d.lastSeen, updateFirst w (fun a => { a with processed := 1 }) d.actions⟩ = true := by
          by_cases hu : u = w
          · subst hu
            exact stepOkB_of_le u d _ ea.processed 1 hpw hpd1 hple
          · exact stepOkB_of_eq u d _
              ((processedOf_set_ne d.lastSeen d.lastSeen d.actions w u hu 1).symm)
        have hnd1 : (uuids (updateFirst w (fun a => { a with processed := (1 : Int) })
            d.actions)).Nodup := by
          rw [uuids_updateFirst w (fun a => { a with processed := (1 : Int) }) (fun a => rfl)]
          exact hnd
        cases resp with
        | none =>
          have hrun : runOp d (.mark w none) =
              (⟨d.lastSeen, updateFirst w (fun a => { a with processed := 1 }) d.actions⟩,
               [⟨d.lastSeen, updateFirst w (fun a => { a with processed := 1 }) d.actions⟩]) := by
            unfold runOp StateMarkActionAsProcessed
            dsimp only
            rw [hf]
          rw [hrun] at hrest ⊢
          simp only [List.singleton_append]
          rw [chainB_cons_cons]
          simp only [Bool.and_eq_true]
          exact ⟨step1, ih _ hnd1 hrest⟩
        | some st =>
          by_cases hst : st = 200 ∨ st = 404
          · have hrun : runOp d (.mark w (some st)) =
                (⟨d.lastSeen, updateFirst w (fun a => { a with processed := 2 })
                   (updateFirst w (fun a => { a with processed := 1 }) d.actions)⟩,
                 [⟨d.lastSeen, updateFirst w (fun a => { a with processed := 1 }) d.actions⟩,
                  ⟨d.lastSeen, updateFirst w (fun a => { a with processed := 2 })
                    (updateFirst w (fun a => { a with processed := 1 }) d.actions)⟩]) := by
              unfold runOp StateMarkActionAsProcessed
              dsimp only
              rw [hf]
              dsimp only
              rw [if_pos hst]
            rw [hrun] at hrest ⊢
            simp only [List.cons_append, List.nil_append]
            rw [chainB_cons_cons, chainB_cons_cons]
            simp only [Bool.and_eq_true]
            have hfd1 : findAction w
                (updateFirst w (fun a => { a with processed := (1 : Int) }) d.actions) =
                some { ea with processed := 1 } := by
              rw [findAction_updateFirst w (fun a => { a with processed := (1 : Int) })
                (fun a => rfl), hf]
              rfl
            have hpd2 : processedOf
                ⟨d.lastSeen, updateFirst w (fun a => { a with processed := 2 })
                  (updateFirst w (fun a => { a with processed := 1 }) d.actions)⟩ w =
                some 2 := processedOf_set_self d.lastSeen _ w 2 _ hfd1
            have step2 : stepOkB u
                ⟨d.lastSeen, updateFirst w (fun a => { a with processed := 1 }) d.actions⟩
                ⟨d.lastSeen, updateFirst w (fun a => { a with processed := 2 })
                  (updateFirst w (fun a => { a with processed := 1 }) d.actions)⟩ = true := by
              by_cases hu : u = w
              · subst hu
                exact stepOkB_of_le u _ _ 1 2 hpd1 hpd2 (by omega)
              · exact stepOkB_of_eq u _ _
                  ((processedOf_set_ne d.lastSeen d.lastSeen _ w u hu 2).symm)
            have hnd2 : (uuids (updateFirst w (fun a => { a with processed := (2 : Int) })
                (updateFirst w (fun a => { a with processed := (1 : Int) })
                  d.actions))).Nodup := by
              rw [uuids_updateFirst w (fun a => { a with processed := (2 : Int) })
                (fun a => rfl)]
              exact hnd1
            exact ⟨step1, step2, ih _ hnd2 hrest⟩
          · have hrun : runOp d (.mark w (some st)) =
                (⟨d.lastSeen, updateFirst w (fun a => { a with processed := 1 }) d.actions⟩,
                 [⟨d.lastSeen, updateFirst w (fun a => { a with processed := 1 }) d.actions⟩]) := by
              unfold runOp StateMarkActionAsProcessed
              dsimp only
              rw [hf]
              dsimp only
              rw [if_neg hst]
            rw [hrun] at hrest ⊢
            simp only [List.singleton_append]
            rw [chainB_cons_cons]
            simp only [Bool.and_eq_true]
            exact ⟨step1, ih _ hnd1 hrest⟩
    | delete w =>
      cases hf : findAction w d.actions with
      | none =>
        have hrun : runOp d (.delete w) = (d, []) := by
          unfold runOp StateDeleteAction
          dsimp only
          rw [hf]
        rw [hrun] at hrest ⊢
        simp only [List.nil_append]
        exact ih d hnd hrest
      | some ea =>
        have hrun : runOp d (.delete w) =
            (⟨d.lastSeen, removeFirst w d.actions⟩,
             [⟨d.lastSeen, removeFirst w d.actions⟩]) := by
          unfold runOp StateDeleteAction
          dsimp only
          rw [hf]
        rw [hrun] at hrest ⊢
        simp only [List.singleton_append]
        rw [chainB_cons_cons]
        simp only [Bool.and_eq_true]
        have step : stepOkB u d ⟨d.lastSeen, removeFirst w d.actions⟩ = true := by
          by_cases hu : u = w
          · subst hu
            refine stepOkB_of_none2 u d _ ?_
            simp [processedOf, findAction_removeFirst_self u d.actions hnd]
          · refine stepOkB_of_eq u d _ ?_
            simp [processedOf, findAction_removeFirst_ne u w hu d.actions]
        refine ⟨step, ih _ ?_ hrest⟩
        exact List.Nodup.sublist (uuids_removeFirst_sublist w d.actions) hnd
    | add vu cu a o =>
      dsimp only at hop
      rcases addAction_snd_cases d vu cu a o with hrun0 | ⟨enc, hencu, hencp, hrun0⟩
      · have hrun : runOp d (.add vu cu a o) = (d, []) := hrun0
        rw [hrun] at hrest ⊢
        simp only [List.nil_append]
        exact ih d hnd hrest
      · have hrun : runOp d (.add vu cu a o) =
            (⟨d.lastSeen, d.actions ++ [enc]⟩, [⟨d.lastSeen, d.actions ++ [enc]⟩]) := hrun0
        rw [hrun] at hrest ⊢
        simp only [List.singleton_append]
        rw [chainB_cons_cons]
        simp only [Bool.and_eq_true]
        have step : stepOkB u d ⟨d.lastSeen, d.actions ++ [enc]⟩ = true := by
          cases hfa : findAction u d.actions with
          | none =>
            refine stepOkB_of_none u d _ ?_
            simp [processedOf, hfa]
          | some a0 =>
            refine stepOkB_of_eq u d _ ?_
            simp [processedOf, findAction_append, hfa]
        refine ⟨step, ih _ ?_ hrest⟩
        rw [uuids_append_one]
        rw [List.nodup_append]
        refine ⟨hnd, List.nodup_singleton _, ?_⟩
        intro x hx hx'
        simp at hx'
        subst hx'
        exact hop (hencu ▸ hx)

/-- Witness for the amended C5 at a concrete store: a single mark (on a
processed=0 action) followed by a delete gives a monotone trace. -/
theorem processed_monotone_amended_witness :
    monotonePer "w1" c5d [.mark "w1" (some 200), .delete "w1"] = true :=
  processed_monotone_amended "w1" [.mark "w1" (some 200), .delete "w1"] c5d
    (by decide) ⟨by decide, by decide, trivial⟩

/-! ## Dispatcher (main.go:126-179) and the recurring-action invariant (C6) -/

/-- `alistInsert` of the same key is found. -/
theorem alistFind_insert_self {α : Type} (k : String) (v : α)
    (l : List (String × α)) : alistFind k (alistInsert k v l) = some v := by
  induction l with
  | nil => simp [alistInsert, alistFind]
  | cons p rest ih =>
    by_cases hk : p.1 = k
    · simp [alistInsert, alistFind, hk]
    · simp [alistInsert, alistFind, hk, ih]

/-- `alistInsert` of a different key preserves lookups. -/
theorem alistFind_insert_ne {α : Type} (k k' : String) (hne : k ≠ k') (v : α)
    (l : List (String × α)) : alistFind k (alistInsert k' v l) = alistFind k l := by
  have hk'k : ¬ (k' = k) := fun h => hne h.symm
  induction l with
  | nil => simp [alistInsert, alistFind, hk'k]
  | cons p rest ih =>
    by_cases hk : p.1 = k'
    · have hpk : ¬ (p.1 = k) := fun h => hk'k (hk.symm.trans h)
      simp [alistInsert, alistFind, hk, hpk, hk'k]
    · by_cases hk2 : p.1 = k <;>
        simp [alistInsert, alistFind, hk, hk2, hne, hk'k, ih]

/-- `alistErase` of a different key preserves lookups. -/
theorem alistFind_erase_ne {α : Type} (k k' : String) (hne : k ≠ k')
    (l : List (String × α)) : alistFind k (alistErase k' l) = alistFind k l := by
  induction l with
  | nil => rfl
  | cons p rest ih =>
    by_cases hk : p.1 = k'
    · have hpk : ¬ (p.1 = k) := fun h => hne (h.symm.trans hk)
      have hk'k : ¬ (k' = k) := fun h => hne h.symm
      simp [alistErase, alistFind, hk, hpk, hk'k]
    · by_cases hk2 : p.1 = k <;> simp [alistErase, alistFind, hk, hk2, hne, ih]

/-- The secret stored by the keeper under client `c` and id `s`. -/
def secretAt (v : Vault) (c s : String) : Option VSecret :=
  match alistFind c v.data with
  | none => none
  | some cd => alistFind s cd.secrets

/-- `ensureClientUUID` preserves an existing secret lookup. -/
theorem secretAt_ensure (v : Vault) (c' : String) (now : Int) (c u : String)
    (sec : VSecret) (h : secretAt v c u = some sec) :
    secretAt (v.ensureClientUUID c' now) c u = some sec := by
  unfold Vault.ensureClientUUID
  cases hc' : alistFind c' v.data with
  | some _ => exact h
  | none =>
    unfold secretAt at h ⊢
    by_cases hcc : c = c'
    · subst hcc
      rw [hc'] at h
      simp at h
    · rw [alistFind_insert_ne c c' hcc]
      exact h

/-- `GetSecret` only mutates the vault through `ensureClientUUID`. -/
theorem getSecret_snd (v : Vault) (c' s' : String) (now : Int)
    (gen : Except CryptError X25519Identity) :
    (v.GetSecret c' s' now gen).2 = v.ensureClientUUID c' now := by
  unfold Vault.GetSecret
  dsimp only
  cases alistFind c' (v.ensureClientUUID c' now).data with
  | none => rfl
  | some cd =>
    dsimp only
    cases alistFind s' cd.secrets with
    | none => rfl
    | some sec =>
      dsimp only
      by_cases hg : now - cd.lastSeen ≤ sec.processAfter * (v.ensureClientUUID c' now).secretProcessUnit
      · rw [if_pos hg]
      · rw [if_neg hg]
        cases cryptNew (v.ensureClientUUID c' now).key gen with
        | error e => rfl
        | ok cr =>
          dsimp only
          cases cr.Decrypt sec.key with
          | error e => rfl
          | ok dk => rfl

/-- Deleting a secret with a different id preserves the lookup. -/
theorem secretAt_deleteSecret_ne (v : Vault) (c' s' : String) (now : Int)
    (c u : String) (hne : u ≠ s') (sec : VSecret)
    (h : secretAt v c u = some sec) :
    secretAt (v.DeleteSecret c' s' now).2 c u = some sec := by
  unfold Vault.DeleteSecret
  dsimp only
  have hens := secretAt_ensure v c' now c u sec h
  cases hc' : alistFind c' (v.ensureClientUUID c' now).data with
  | none => exact hens
  | some cd =>
    dsimp only
    cases hs' : alistFind s' cd.secrets with
    | none => exact hens
    | some sec' =>
      dsimp only
      by_cases hg : now - cd.lastSeen ≤ sec'.processAfter * (v.ensureClientUUID c' now).secretProcessUnit
      · rw [if_pos hg]
        exact hens
      · rw [if_neg hg]
        unfold secretAt at hens ⊢
        dsimp only
        by_cases hcc : c = c'
        · subst hcc
          rw [alistFind_insert_self]
          rw [hc'] at hens
          dsimp only
          rw [alistFind_erase_ne u s' hne]
          exact hens
        · rw [alistFind_insert_ne c c' hcc]
          exact hens

/-- `findAction` returns an action bearing the looked-up uuid. -/
theorem findAction_uuid (u : String) (l : List EncryptedAction)
    (a : EncryptedAction) (h : findAction u l = some a) : a.uuid = u := by
  induction l with
  | nil => simp [findAction] at h
  | cons b rest ih =>
    by_cases hb : b.uuid = u
    · simp [findAction, hb] at h
      rw [← h]
      exact hb
    · simp [findAction, hb] at h
      exact ih h

/-- A pointwise property closed under `f` survives `updateFirst`. -/
theorem forall_mem_updateFirst (p : EncryptedAction → Prop) (w : String)
    (f : EncryptedAction → EncryptedAction) (hf : ∀ a, p a → p (f a))
    (l : List EncryptedAction) (h : ∀ a ∈ l, p a) :
    ∀ a ∈ updateFirst w f l, p a := by
  induction l with
  | nil => intro a ha; simp [updateFirst] at ha
  | cons b rest ih =>
    intro a ha
    by_cases hb : b.uuid = w
    · rw [updateFirst, if_pos hb] at ha
      rcases List.mem_cons.mp ha with h1 | h1
      · exact h1 ▸ hf b (h b (List.mem_cons_self b rest))
      · exact h a (List.mem_cons_of_mem b h1)
    · rw [updateFirst, if_neg hb] at ha
      rcases List.mem_cons.mp ha with h1 | h1
      · exact h1 ▸ h b (List.mem_cons_self b rest)
      · exact ih (fun x hx => h x (List.mem_cons_of_mem b hx)) a h1

/-- The DELETE endpoint returns exactly DeleteSecret's vault. -/
theorem deleteEndpoint_snd (v : Vault) (c' s' : String) (now : Int) :
    (deleteVaultSecretEndpoint v c' s' now).2 = (v.DeleteSecret c' s' now).2 := by
  unfold deleteVaultSecretEndpoint
  dsimp only
  cases (v.DeleteSecret c' s' now).1 with
  | ok _ => rfl
  | error _ => rfl

/-- The GET endpoint returns exactly GetSecret's vault. -/
theorem getEndpoint_snd (v : Vault) (c' s' : String) (now : Int)
    (gen : Except CryptError X25519Identity) :
    (getVaultSecretEndpoint v c' s' now gen).2.2 = (v.GetSecret c' s' now gen).2 := by
  unfold getVaultSecretEndpoint
  dsimp only
  cases (v.GetSecret c' s' now gen).1 with
  | ok _ => rfl
  | error e => cases e <;> rfl

/-- DecryptAction touches the keeper only through `ensureClientUUID`. -/
theorem decryptK_vault (d : StateData) (v : Vault) (u' : String) (now : Int)
    (gv gi : Except CryptError X25519Identity) :
    (decryptActionK d v u' now gv gi).2 = v ∨
    ∃ c'', (decryptActionK d v u' now gv gi).2 = v.ensureClientUUID c'' now := by
  unfold decryptActionK
  cases hf' : findAction u' d.actions with
  | none => left; rfl
  | some ea =>
    right
    refine ⟨ea.encryptionMeta.vaultURL.clientUUID, ?_⟩
    dsimp only
    have hsnd : (getVaultSecretEndpoint v ea.encryptionMeta.vaultURL.clientUUID
        ea.encryptionMeta.vaultURL.secretUUID now gv).2.2 =
        v.ensureClientUUID ea.encryptionMeta.vaultURL.clientUUID now := by
      rw [getEndpoint_snd, getSecret_snd]
    generalize hR : getVaultSecretEndpoint v ea.encryptionMeta.vaultURL.clientUUID
        ea.encryptionMeta.vaultURL.secretUUID now gv = R at hsnd ⊢
    obtain ⟨st, body, v2⟩ := R
    dsimp only at hsnd ⊢
    by_cases hst : st = 200
    · rw [if_pos hst]
      cases body with
      | none => exact hsnd
      | some vsec =>
        dsimp only
        cases cryptNew vsec.key gi with
        | error e => exact hsnd
        | ok c =>
          dsimp only
          cases c.Decrypt ea.action.data with
          | error e => exact hsnd
          | ok plain => exact hsnd
    · rw [if_neg hst]
      exact hsnd

/-- The full effect of the composed MarkActionAsProcessed: either the
action is missing and nothing changes, or the document gets the usual
processed updates (lastSeen untouched) and the keeper runs DeleteSecret
at the stored URL. -/
theorem markK_effect (d : StateData) (v : Vault) (u' : String) (now : Int) :
    ((markActionAsProcessedK d v u' now).2.1 = d ∧
     (markActionAsProcessedK d v u' now).2.2 = v) ∨
    (∃ ea, findAction u' d.actions = some ea ∧
      (markActionAsProcessedK d v u' now).2.1.lastSeen = d.lastSeen ∧
      ((markActionAsProcessedK d v u' now).2.1.actions =
         updateFirst u' (fun a => { a with processed := 1 }) d.actions ∨
       (markActionAsProcessedK d v u' now).2.1.actions =
         updateFirst u' (fun a => { a with processed := 2 })
           (updateFirst u' (fun a => { a with processed := 1 }) d.actions)) ∧
      (markActionAsProcessedK d v u' now).2.2 =
        (v.DeleteSecret ea.encryptionMeta.vaultURL.clientUUID
           ea.encryptionMeta.vaultURL.secretUUID now).2) := by
  unfold markActionAsProcessedK
  cases hf' : findAction u' d.actions with
  | none => left; exact ⟨rfl, rfl⟩
  | some ea =>
    right
    refine ⟨ea, rfl, ?_⟩
    dsimp only
    by_cases hok : (deleteVaultSecretEndpoint v ea.encryptionMeta.vaultURL.clientUUID
        ea.encryptionMeta.vaultURL.secretUUID now).1 = 200 ∨
        (deleteVaultSecretEndpoint v ea.encryptionMeta.vaultURL.clientUUID
          ea.encryptionMeta.vaultURL.secretUUID now).1 = 404
    · rw [if_pos hok]
      exact ⟨rfl, Or.inr rfl, deleteEndpoint_snd v _ _ now⟩
    · rw [if_neg hok]
      exact ⟨rfl, Or.inl rfl, deleteEndpoint_snd v _ _ now⟩

/-- Per-tick inputs of the dispatcher: the tick's wall-clock time, the
configured time unit, and per-action oracles for the executor outcome and
the two crypt.New entropy sources used by DecryptAction. -/
structure TickEnv where
  now : Int
  unit : Int
  execOk : String → Bool
  genV : String → Except CryptError X25519Identity
  genI : String → Except CryptError X25519Identity

/-- One iteration of the dispatcher loop body (main.go:131-172, stored in
src/Dockerfile) for the action with uuid `u`: skip when processed=2; skip
unless now-lastSeen strictly exceeds processAfter*unit; skip unless
now-lastRun strictly exceeds minInterval*unit; when processed=0, decrypt
via the keeper, run the executor and update lastRun (any error skips the
rest); finally call MarkActionAsProcessed only when minInterval <= 0. -/
def dispatchStep (env : TickEnv) (sv : StateData × Vault) (u : String) :
    StateData × Vault :=
  let d := sv.1
  let v := sv.2
  match findAction u d.actions with
  | none => (d, v)
  | some a =>
    if a.processed = 2 then (d, v)
    else if env.now - d.lastSeen > a.action.processAfter * env.unit then
      if env.now - a.lastRun > a.action.minInterval * env.unit then
        if a.processed = 0 then
          match decryptActionK d v u env.now (env.genV u) (env.genI u) with
          | (.error _, v') => (d, v')
          | (.ok _, v') =>
            if env.execOk u then
              let d1 := (StateUpdateActionLastRun d u env.now).2.1
              if a.action.minInterval ≤ 0 then
                ((markActionAsProcessedK d1 v' u env.now).2.1,
                 (markActionAsProcessedK d1 v' u env.now).2.2)
              else (d1, v')
            else (d, v')
        else
          if a.action.minInterval ≤ 0 then
            ((markActionAsProcessedK d v u env.now).2.1,
             (markActionAsProcessedK d v u env.now).2.2)
          else (d, v)
      else (d, v)
    else (d, v)

/-- One dispatcher tick: iterate over the actions in insertion order. -/
def dispatchTick (env : TickEnv) (sv : StateData × Vault) : StateData × Vault :=
  (uuids sv.1.actions).foldl (dispatchStep env) sv

/-- A sequence of dispatcher ticks. -/
def dispatchTicks : List TickEnv → StateData × Vault → StateData × Vault
  | [], sv => sv
  | env :: rest, sv => dispatchTicks rest (dispatchTick env sv)

/-- The C6 invariant, relative to a fixed recurring action `a0` and its
keeper secret: the store is well-formed (distinct uuids, each action's
vault URL carries its own uuid), the action is still present with
processed=0 and its immutable fields intact, and its key is still held by
the keeper. -/
def RecurInv (u : String) (a0 : EncryptedAction) (sec : VSecret)
    (sv : StateData × Vault) : Prop :=
  (uuids sv.1.actions).Nodup ∧
  (∀ a ∈ sv.1.actions, a.encryptionMeta.vaultURL.secretUUID = a.uuid) ∧
  (∃ a', findAction u sv.1.actions = some a' ∧ a'.processed = 0 ∧
    a'.action.minInterval = a0.action.minInterval ∧
    a'.encryptionMeta = a0.encryptionMeta) ∧
  secretAt sv.2 a0.encryptionMeta.vaultURL.clientUUID u = some sec

/-- A found action is a member of the list. -/
theorem findAction_mem (u : String) (l : List EncryptedAction)
    (a : EncryptedAction) (h : findAction u l = some a) : a ∈ l := by
  induction l with
  | nil => simp [findAction] at h
  | cons b rest ih =>
    by_cases hb : b.uuid = u
    · simp [findAction, hb] at h
      exact h ▸ List.mem_cons_self b rest
    · simp [findAction, hb] at h
      exact List.mem_cons_of_mem b (ih h)

/-- MarkActionAsProcessed on a different uuid preserves the C6 invariant:
the monitored action is untouched and its keeper key survives because the
DELETE goes to the other action's own secret id. -/
theorem markK_preserves (u u' : String) (hne : u ≠ u')
    (a0 : EncryptedAction) (sec : VSecret) (d : StateData) (v : Vault) (now : Int)
    (hinv : RecurInv u a0 sec (d, v)) :
    RecurInv u a0 sec
      ((markActionAsProcessedK d v u' now).2.1, (markActionAsProcessedK d v u' now).2.2) := by
  obtain ⟨hnd, htie, ⟨a', hfa', hp', hmi', hmeta'⟩, hsec⟩ := hinv
  rcases markK_effect d v u' now with ⟨hd, hv⟩ | ⟨ea, hfea, hls, hacts, hvlt⟩
  · rw [hd, hv]
    exact ⟨hnd, htie, ⟨a', hfa', hp', hmi', hmeta'⟩, hsec⟩
  · have hsu' : ea.encryptionMeta.vaultURL.secretUUID = u' := by
      rw [htie ea (findAction_mem u' d.actions ea hfea)]
      exact findAction_uuid u' d.actions ea hfea
    have hsecnew : secretAt (markActionAsProcessedK d v u' now).2.2
        a0.encryptionMeta.vaultURL.clientUUID u = some sec := by
      rw [hvlt]
      exact secretAt_deleteSecret_ne v ea.encryptionMeta.vaultURL.clientUUID
        ea.encryptionMeta.vaultURL.secretUUID now a0.encryptionMeta.vaultURL.clientUUID u
        (hsu' ▸ hne) sec hsec
    refine ⟨?_, ?_, ⟨a', ?_, hp', hmi', hmeta'⟩, hsecnew⟩
    · rcases hacts with h | h <;> rw [h]
      · rw [uuids_updateFirst u' (fun a => { a with processed := 1 }) (fun a => rfl)]
        exact hnd
      · rw [uuids_updateFirst u' (fun a => { a with processed := 2 }) (fun a => rfl),
          uuids_updateFirst u' (fun a => { a with processed := 1 }) (fun a => rfl)]
        exact hnd
    · rcases hacts with h | h <;> rw [h]
      · exact forall_mem_updateFirst _ u' (fun a => { a with processed := 1 })
          (fun a h => h) d.actions htie
      · exact forall_mem_updateFirst _ u' (fun a => { a with processed := 2 })
          (fun a h => h) _
          (forall_mem_updateFirst _ u' (fun a => { a with processed := 1 })
            (fun a h => h) d.actions htie)
    · rcases hacts with h | h <;> rw [h]
      · rw [findAction_updateFirst_ne u u' hne (fun a => { a with processed := 1 })
          (fun a => rfl)]
        exact hfa'
      · rw [findAction_updateFirst_ne u u' hne (fun a => { a with processed := 2 })
          (fun a => rfl),
          findAction_updateFirst_ne u u' hne (fun a => { a with processed := 1 })
          (fun a => rfl)]
        exact hfa'

/-- One dispatcher iteration preserves the C6 invariant of a recurring
action (`minInterval > 0`): the mark branch is gated by
`minInterval <= 0`, so it can only fire for other actions, and every
other effect leaves processed and the keeper key alone. -/
theorem dispatchStep_preserves (u : String) (a0 : EncryptedAction) (sec : VSecret)
    (hmi : a0.action.minInterval > 0)
    (env : TickEnv) (sv : StateData × Vault) (u' : String)
    (hinv : RecurInv u a0 sec sv) :
    RecurInv u a0 sec (dispatchStep env sv u') := by
  obtain ⟨d, v⟩ := sv
  obtain ⟨hnd, htie, ⟨a', hfa', hp', hmi', hmeta'⟩, hsec⟩ := hinv
  have base : RecurInv u a0 sec (d, v) :=
    ⟨hnd, htie, ⟨a', hfa', hp', hmi', hmeta'⟩, hsec⟩
  unfold dispatchStep
  dsimp only
  cases hfu' : findAction u' d.actions with
  | none => exact base
  | some a =>
    dsimp only
    by_cases h2 : a.processed = 2
    · rw [if_pos h2]; exact base
    · rw [if_neg h2]
      by_cases hg1 : env.now - d.lastSeen > a.action.processAfter * env.unit
      · rw [if_pos hg1]
        by_cases hg2 : env.now - a.lastRun > a.action.minInterval * env.unit
        · rw [if_pos hg2]
          by_cases h0 : a.processed = 0
          · rw [if_pos h0]
            cases hdec : decryptActionK d v u' env.now (env.genV u') (env.genI u') with
            | mk res v' =>
              have hdv := decryptK_vault d v u' env.now (env.genV u') (env.genI u')
              rw [hdec] at hdv
              dsimp only at hdv
              have hv' : secretAt v' a0.encryptionMeta.vaultURL.clientUUID u = some sec := by
                rcases hdv with h | ⟨c'', h⟩
                · rw [h]; exact hsec
                · rw [h]
                  exact secretAt_ensure v c'' env.now _ u sec hsec
              have basev' : RecurInv u a0 sec (d, v') :=
                ⟨hnd, htie, ⟨a', hfa', hp', hmi', hmeta'⟩, hv'⟩
              cases res with
              | error e => exact basev'
              | ok act =>
                dsimp only
                by_cases hex : env.execOk u' = true
                · rw [if_pos hex]
                  have hd1run : (StateUpdateActionLastRun d u' env.now).2.1 =
                      ⟨d.lastSeen, updateFirst u'
                        (fun a => { a with lastRun := env.now }) d.actions⟩ := by
                    unfold StateUpdateActionLastRun
                    rw [hfu']
                  have hinv1 : RecurInv u a0 sec
                      ((StateUpdateActionLastRun d u' env.now).2.1, v') := by
                    rw [hd1run]
                    refine ⟨?_, ?_, ?_, hv'⟩
                    · show (uuids (updateFirst u'
                        (fun a => { a with lastRun := env.now }) d.actions)).Nodup
                      rw [uuids_updateFirst u' (fun a => { a with lastRun := env.now })
                        (fun a => rfl)]
                      exact hnd
                    · exact forall_mem_updateFirst _ u'
                        (fun a => { a with lastRun := env.now }) (fun a h => h)
                        d.actions htie
                    · by_cases huu : u = u'
                      · subst huu
                        refine ⟨{ a' with lastRun := env.now }, ?_, hp', hmi', hmeta'⟩
                        show findAction u (updateFirst u
                          (fun a => { a with lastRun := env.now }) d.actions) = _
                        rw [findAction_updateFirst u
                          (fun a => { a with lastRun := env.now }) (fun a => rfl), hfa']
                        rfl
                      · refine ⟨a', ?_, hp', hmi', hmeta'⟩
                        show findAction u (updateFirst u'
                          (fun a => { a with lastRun := env.now }) d.actions) = _
                        rw [findAction_updateFirst_ne u u' huu
                          (fun a => { a with lastRun := env.now }) (fun a => rfl)]
                        exact hfa'
                  by_cases hmin : a.action.minInterval ≤ 0
                  · rw [if_pos hmin]
                    have hne : u ≠ u' := by
                      intro he
                      rw [← he] at hfu'
                      rw [hfu'] at hfa'
                      injection hfa' with he2
                      rw [← he2] at hmi'
                      omega
                    exact markK_preserves u u' hne a0 sec
                      (StateUpdateActionLastRun d u' env.now).2.1 v' env.now hinv1
                  · rw [if_neg hmin]
                    exact hinv1
                · rw [if_neg hex]
                  exact basev'
          · rw [if_neg h0]
            by_cases hmin : a.action.minInterval ≤ 0
            · rw [if_pos hmin]
              have hne : u ≠ u' := by
                intro he
                rw [← he] at hfu'
                rw [hfu'] at hfa'
                injection hfa' with he2
                rw [← he2] at hp'
                exact h0 hp'
              exact markK_preserves u u' hne a0 sec d v env.now base
            · rw [if_neg hmin]
              exact base
        · rw [if_neg hg2]
          exact base
      · rw [if_neg hg1]
        exact base

/-- Folding dispatcher iterations preserves the C6 invariant. -/
theorem foldl_dispatchStep_preserves (u : String) (a0 : EncryptedAction)
    (sec : VSecret) (hmi : a0.action.minInterval > 0) (env : TickEnv) :
    ∀ (l : List String) (sv : StateData × Vault), RecurInv u a0 sec sv →
      RecurInv u a0 sec (l.foldl (dispatchStep env) sv) := by
  intro l
  induction l with
  | nil => intro sv h; exact h
  | cons x rest ih =>
    intro sv h
    exact ih _ (dispatchStep_preserves u a0 sec hmi env sv x h)

/-- Any number of dispatcher ticks preserves the C6 invariant. -/
theorem dispatchTicks_preserves (u : String) (a0 : EncryptedAction)
    (sec : VSecret) (hmi : a0.action.minInterval > 0) :
    ∀ (envs : List TickEnv) (sv : StateData × Vault), RecurInv u a0 sec sv →
      RecurInv u a0 sec (dispatchTicks envs sv) := by
  intro envs
  induction envs with
  | nil => intro sv h; exact h
  | cons env rest ih =>
    intro sv h
    exact ih _ (foldl_dispatchStep_preserves u a0 sec hmi env _ sv h)

/-- C6: a well-formed store running only the dispatcher never advances a
recurring action (`minInterval > 0`): after any sequence of ticks its
processed field is still 0 and its private key is still stored by the
keeper — only actions with `minInterval <= 0` reach the mark call that
deletes the key. -/
theorem recurring_action_never_advances
    (d : StateData) (v : Vault) (u : String) (a0 : EncryptedAction) (sec : VSecret)
    (hnd : (uuids d.actions).Nodup)
    (htie : ∀ a ∈ d.actions, a.encryptionMeta.vaultURL.secretUUID = a.uuid)
    (hf : findAction u d.actions = some a0)
    (hmi : a0.action.minInterval > 0)
    (hp : a0.processed = 0)
    (hsec : secretAt v a0.encryptionMeta.vaultURL.clientUUID u = some sec)
    (envs : List TickEnv) :
    ∃ a', findAction u (dispatchTicks envs (d, v)).1.actions = some a' ∧
      a'.processed = 0 ∧ a'.action.minInterval = a0.action.minInterval ∧
      secretAt (dispatchTicks envs (d, v)).2 a0.encryptionMeta.vaultURL.clientUUID u =
        some sec := by
  have h := dispatchTicks_preserves u a0 sec hmi envs (d, v)
    ⟨hnd, htie, ⟨a0, hf, hp, rfl, rfl⟩, hsec⟩
  obtain ⟨-, -, ⟨a', hfa', hp', hmi', -⟩, hs⟩ := h
  exact ⟨a', hfa', hp', hmi', hs⟩

/-- Recurring action used to witness C6 (minInterval 3). -/
def c6a : EncryptedAction :=
  ⟨⟨"dummy", 1, 3, "c", .cipherB64 ⟨"ik"⟩ (.raw "pl")⟩, "u1", 0, 0,
   ⟨"X25519", ⟨"b", "c1", "u1"⟩⟩⟩

/-- Keeper used to witness C6: holds the action's key, released. -/
def c6v : Vault :=
  ⟨[("c1", ⟨0, [("u1", ⟨.cipherB64 ⟨"mk"⟩ (.raw "ik"), 1, "X25519"⟩)]⟩)], .raw "mk", 1⟩

/-- Witness for C6: one tick whose gates are all open (the action runs)
still leaves processed=0 and the key in place. -/
theorem recurring_action_never_advances_witness :
    ∃ a', findAction "u1"
        (dispatchTicks [⟨100, 1, fun _ => true, fun _ => .error .generateFailed,
          fun _ => .error .generateFailed⟩] (⟨0, [c6a]⟩, c6v)).1.actions = some a' ∧
      a'.processed = 0 ∧ a'.action.minInterval = c6a.action.minInterval ∧
      secretAt (dispatchTicks [⟨100, 1, fun _ => true, fun _ => .error .generateFailed,
          fun _ => .error .generateFailed⟩] (⟨0, [c6a]⟩, c6v)).2
        c6a.encryptionMeta.vaultURL.clientUUID "u1" =
        some ⟨.cipherB64 ⟨"mk"⟩ (.raw "ik"), 1, "X25519"⟩ :=
  recurring_action_never_advances ⟨0, [c6a]⟩ c6v "u1" c6a
    ⟨.cipherB64 ⟨"mk"⟩ (.raw "ik"), 1, "X25519"⟩
    (by decide) (by decide) (by decide) (by decide) (by decide) (by decide)
    [⟨100, 1, fun _ => true, fun _ => .error .generateFailed,
      fun _ => .error .generateFailed⟩]
